import Mathlib

/-!
Verification development for the caf2 task-graph engine (`src/caf2/caf.py`).

The Python source is shallowly embedded: pure helpers become Lean
functions, the mutable future/session object graph becomes an explicit
`World` state threaded through the operations, and fallible operations
return `Option`/`Except`.  Machine-word arithmetic (SHA-1) is modelled on
`Nat` with explicit reduction modulo `2 ^ 32`.
-/

namespace Caf2

/-! ## Byte-level helpers: UTF-8 and SHA-1 (`hash_text`, caf.py lines 32-35)

`hash_text` encodes a string as UTF-8 and returns the SHA-1 hex digest,
exactly as `hashlib.sha1(text.encode()).hexdigest()` does. -/

/-- UTF-8 encoding of a single code point, as a list of bytes. -/
def utf8Char (n : Nat) : List Nat :=
  if n < 0x80 then [n]
  else if n < 0x800 then
    [0xC0 ||| (n >>> 6), 0x80 ||| (n &&& 0x3F)]
  else if n < 0x10000 then
    [0xE0 ||| (n >>> 12), 0x80 ||| ((n >>> 6) &&& 0x3F), 0x80 ||| (n &&& 0x3F)]
  else
    [0xF0 ||| (n >>> 18), 0x80 ||| ((n >>> 12) &&& 0x3F),
     0x80 ||| ((n >>> 6) &&& 0x3F), 0x80 ||| (n &&& 0x3F)]

/-- UTF-8 encoding of a string (`str.encode()` in Python). -/
def utf8Bytes (s : String) : List Nat :=
  s.data.flatMap (fun c => utf8Char c.toNat)

/-- 32-bit truncation. -/
def m32 (n : Nat) : Nat := n % 2 ^ 32

/-- Left rotation of a 32-bit word. -/
def rotl (k n : Nat) : Nat :=
  m32 ((n <<< k) ||| (n >>> (32 - k)))

/-- SHA-1 padding: append `0x80`, zeros to 56 mod 64, then the 64-bit
big-endian bit length of the original message. -/
def sha1Pad (msg : List Nat) : List Nat :=
  let bitLen := 8 * msg.length
  let padZeros := (119 - msg.length % 64) % 64
  msg ++ [0x80] ++ List.replicate padZeros 0 ++
    (List.range 8).map (fun i => (bitLen >>> (8 * (7 - i))) &&& 0xFF)

/-- Split a list into chunks of 64 bytes (structural recursion on a
counter that the list length bounds). -/
def chunksGo : Nat → List Nat → List (List Nat)
  | 0, _ => []
  | fuel + 1, bs =>
    if bs.length = 0 then []
    else bs.take 64 :: chunksGo fuel (bs.drop 64)

/-- Split a list into chunks of 64 bytes. -/
def chunks64 (bs : List Nat) : List (List Nat) :=
  chunksGo bs.length bs

/-- The sixteen 32-bit big-endian words of a 64-byte chunk. -/
def chunkWords (c : List Nat) : List Nat :=
  (List.range 16).map (fun i =>
    (c.getD (4 * i) 0) <<< 24 ||| (c.getD (4 * i + 1) 0) <<< 16 |||
    (c.getD (4 * i + 2) 0) <<< 8 ||| (c.getD (4 * i + 3) 0))

/-- Message-schedule extension from 16 to 80 words. -/
def sha1Extend (ws : List Nat) : Nat → List Nat
  | 0 => ws
  | k + 1 =>
    let i := ws.length
    sha1Extend
      (ws ++ [rotl 1 ((ws.getD (i - 3) 0) ^^^ (ws.getD (i - 8) 0) ^^^
        (ws.getD (i - 14) 0) ^^^ (ws.getD (i - 16) 0))]) k

/-- One SHA-1 round, tupled state. -/
def sha1Step (st : Nat × Nat × Nat × Nat × Nat) (iw : Nat × Nat) :
    Nat × Nat × Nat × Nat × Nat :=
  let (a, b, c, d, e) := st
  let (i, w) := iw
  let f :=
    if i < 20 then (b &&& c) ||| ((0xFFFFFFFF ^^^ b) &&& d)
    else if i < 40 then b ^^^ c ^^^ d
    else if i < 60 then (b &&& c) ||| (b &&& d) ||| (c &&& d)
    else b ^^^ c ^^^ d
  let k :=
    if i < 20 then 0x5A827999
    else if i < 40 then 0x6ED9EBA1
    else if i < 60 then 0x8F1BBCDC
    else 0xCA62C1D6
  (m32 (rotl 5 a + f + e + k + w), a, rotl 30 b, c, d)

/-- Process one 64-byte chunk into the running hash state. -/
def sha1Chunk (h : Nat × Nat × Nat × Nat × Nat) (c : List Nat) :
    Nat × Nat × Nat × Nat × Nat :=
  let ws := sha1Extend (chunkWords c) 64
  let (h0, h1, h2, h3, h4) := h
  let (a, b, cc, d, e) :=
    (((List.range 80).zip ws).foldl sha1Step (h0, h1, h2, h3, h4))
  (m32 (h0 + a), m32 (h1 + b), m32 (h2 + cc), m32 (h3 + d), m32 (h4 + e))

/-- Hex digits of a 32-bit word (8 lowercase nibbles). -/
def hex8 (n : Nat) : String :=
  String.mk ((List.range 8).map (fun i =>
    let d := (n >>> (4 * (7 - i))) &&& 0xF
    if d < 10 then Char.ofNat (48 + d) else Char.ofNat (87 + d)))

/-- SHA-1 hex digest of a byte list. -/
def sha1Hex (msg : List Nat) : String :=
  let (h0, h1, h2, h3, h4) :=
    (chunks64 (sha1Pad msg)).foldl sha1Chunk
      (0x67452301, 0xEFCDAB89, 0x98BADCFE, 0x10325476, 0xC3D2E1F0)
  hex8 h0 ++ hex8 h1 ++ hex8 h2 ++ hex8 h3 ++ hex8 h4

/-- `hash_text` (caf.py lines 32-35): SHA-1 hex digest of the UTF-8 bytes. -/
def hash_text (text : String) : String :=
  sha1Hex (utf8Bytes text)

/-! ## Canonical JSON serialisation (Python `json.dumps`)

`Task.spec` (caf.py lines 297-300) and `Template.from_object` (lines
206-220) serialise with `json.dumps(obj, sort_keys=True)`.  With no
`indent`/`separators` argument CPython uses the separators `", "` and
`": "` and, with the default `ensure_ascii=True`, escapes every character
outside `0x20`-`0x7E`. -/

/-- JSON values: the serialisable fragment of Python objects. -/
inductive JVal where
  | null : JVal
  | boolean : Bool → JVal
  | int : Int → JVal
  | str : String → JVal
  | arr : List JVal → JVal
  | obj : List (String × JVal) → JVal
deriving Repr

/-- Four lowercase hex digits (`'\u%04x' % n` in CPython's encoder). -/
def hex4 (n : Nat) : String :=
  String.mk ((List.range 4).map (fun i =>
    let d := (n >>> (4 * (3 - i))) &&& 0xF
    if d < 10 then Char.ofNat (48 + d) else Char.ofNat (87 + d)))

/-- CPython `json` escaping of one character (`ensure_ascii=True`). -/
def pyEscapeChar (c : Char) : String :=
  let n := c.toNat
  if c = '"' then "\\\""
  else if c = '\\' then "\\\\"
  else if c = '\n' then "\\n"
  else if c = '\r' then "\\r"
  else if c = '\t' then "\\t"
  else if n = 8 then "\\b"
  else if n = 12 then "\\f"
  else if n < 0x20 ∨ n > 0x7E then
    if n < 0x10000 then "\\u" ++ hex4 n
    else
      let m := n - 0x10000
      "\\u" ++ hex4 (0xD800 + (m >>> 10)) ++ "\\u" ++ hex4 (0xDC00 + (m &&& 0x3FF))
  else String.singleton c

/-- A Python JSON string literal: quotes around the escaped characters. -/
def pyStr (s : String) : String :=
  "\"" ++ String.join (s.data.map pyEscapeChar) ++ "\""

/-- Ordered insertion used to model `sort_keys=True` (keys compared by
code points, as Python compares `str`); the values are already rendered. -/
def insertKV (kv : String × String) : List (String × String) → List (String × String)
  | [] => [kv]
  | x :: xs => if kv.1 < x.1 then kv :: x :: xs else x :: insertKV kv xs

/-- Sort an association list by key (stable insertion sort). -/
def sortKeys (kvs : List (String × String)) : List (String × String) :=
  kvs.foldr insertKV []

/-- Object entries `key: value` joined by `", "` (keys already sorted,
values already rendered). -/
def joinObj : List (String × String) → String
  | [] => ""
  | [(k, v)] => pyStr k ++ ": " ++ v
  | (k, v) :: kvs => pyStr k ++ ": " ++ v ++ ", " ++ joinObj kvs

mutual
/-- `json.dumps(·, sort_keys=True)` with CPython's default separators
`", "` and `": "`.  Keys are sorted at serialisation time; since each
value serialises independently, rendering values first and then sorting
the `(key, rendered)` pairs produces the identical string. -/
def dumps : JVal → String
  | .null => "null"
  | .boolean true => "true"
  | .boolean false => "false"
  | .int n => toString n
  | .str s => pyStr s
  | .arr xs => "[" ++ dumpsList xs ++ "]"
  | .obj kvs => "\x7b" ++ joinObj (sortKeys (dumpsKVs kvs)) ++ "\x7d"

/-- Array elements joined by `", "`. -/
def dumpsList : List JVal → String
  | [] => ""
  | [x] => dumps x
  | x :: xs => dumps x ++ ", " ++ dumpsList xs

/-- Render each value of an association list. -/
def dumpsKVs : List (String × JVal) → List (String × String)
  | [] => []
  | (k, v) :: kvs => (k, dumps v) :: dumpsKVs kvs
end

/-! ## Runtime values and the future arena

Python's mutable object graph of futures is embedded as an explicit
arena (`World`): a future is named by its index of creation, and every
operation threads the arena. -/

/-- Index of a future in the arena (Python object identity). -/
abbrev FutureId := Nat

/-- Python runtime values handled by the engine: the JSON-serialisable
fragment plus embedded `HashedFuture` references. -/
inductive Val where
  | null : Val
  | boolean : Bool → Val
  | int : Int → Val
  | str : String → Val
  | list : List Val → Val
  | dict : List (String × Val) → Val
  | fut : FutureId → Val
deriving Repr

/-- A Python function's identity: `__module__` and `__qualname__`. -/
structure PyFunc where
  module : String
  qualname : String
deriving Repr, DecidableEq

/-- `get_fullname` (caf.py lines 511-512). -/
def get_fullname (f : PyFunc) : String :=
  f.module ++ ":" ++ f.qualname

mutual
/-- Python `repr()` of a value, used by `str()` on containers. -/
def pyRepr : Val → String
  | .null => "None"
  | .boolean true => "True"
  | .boolean false => "False"
  | .int n => toString n
  | .str s => "'" ++ s ++ "'"
  | .list xs => "[" ++ pyReprList xs ++ "]"
  | .dict kvs => "\x7b" ++ pyReprKVs kvs ++ "\x7d"
  | .fut i => "<future " ++ toString i ++ ">"

/-- Comma-joined `repr()`s of list elements. -/
def pyReprList : List Val → String
  | [] => ""
  | [x] => pyRepr x
  | x :: xs => pyRepr x ++ ", " ++ pyReprList xs

/-- Comma-joined `repr()`s of dict entries. -/
def pyReprKVs : List (String × Val) → String
  | [] => ""
  | [(k, v)] => "'" ++ k ++ "': " ++ pyRepr v
  | (k, v) :: kvs => "'" ++ k ++ "': " ++ pyRepr v ++ ", " ++ pyReprKVs kvs
end

/-- `str()` of a value: like `pyRepr` except that strings print bare. -/
def pyStrVal : Val → String
  | .str s => s
  | v => pyRepr v

/-- The variant of a `HashedFuture` together with its variant-specific
construction data (caf.py classes `Task`, `Template`, `Indexor`). -/
inductive FutKind where
  /-- `Task`: the function and its (promoted) argument futures. -/
  | task : PyFunc → List FutureId → FutKind
  /-- `Template`: the parsed form of `_jsonstr` and the
  `_futures` mapping from hashid to future. -/
  | template : JVal → List (String × FutureId) → FutKind
  /-- `Indexor`: the root task and the key path. -/
  | indexor : FutureId → List Val → FutKind
deriving Repr

/-- One future record: the fields of `Future.__init__` (caf.py lines
60-69) plus `HashedFuture`'s hash data and `Task`'s extra fields. -/
structure Fut where
  kind : FutKind
  /-- `_hashid`, computed once at construction. -/
  hashid : String
  /-- `spec`, the canonical string the hash was taken of. -/
  spec : String
  /-- `_pending`: parents not yet done (a Python set; deduplicated). -/
  pending : List FutureId
  /-- `_children`: futures depending on this one (a Python set). -/
  children : List FutureId
  /-- `_result`: `_NoResult` or the stored value. -/
  result : Option Val
  /-- `_registered`. -/
  registered : Bool
  /-- `Task._future_result` (chained future), `None` otherwise. -/
  futureResult : Option FutureId
  /-- `Task.children`: tasks created during this task's execution. -/
  taskChildren : List FutureId
  /-- `Task._default`. -/
  defaultVal : Option Val
  /-- `Task._label`. -/
  label : Option String
deriving Repr

instance : Inhabited Fut :=
  ⟨{ kind := .task ⟨"", ""⟩ [], hashid := "", spec := "", pending := [],
     children := [], result := none, registered := false, futureResult := none,
     taskChildren := [], defaultVal := none, label := none }⟩

/-- The arena of all futures created so far. -/
structure World where
  futs : List Fut
deriving Repr

/-- Read a future record (total: out-of-range reads the dummy). -/
def getF (w : World) (i : FutureId) : Fut :=
  w.futs.getD i default

/-- Update one future record in place. -/
def updFut (w : World) (i : FutureId) (g : Fut → Fut) : World :=
  ⟨w.futs.set i (g (getF w i))⟩

/-- `Future.done` (caf.py lines 82-83). -/
def doneF (w : World) (i : FutureId) : Bool :=
  (getF w i).result.isSome

/-- `Future.ready` (caf.py lines 79-80). -/
def readyF (w : World) (i : FutureId) : Bool :=
  (getF w i).pending.isEmpty

/-- `Future.__init__`'s `_pending` (caf.py lines 61-64): the parents not
yet done, as a set. -/
def initPending (w : World) (parents : List FutureId) : List FutureId :=
  (parents.filter (fun p => ¬ doneF w p)).dedup

/-- `Future.add_child` (caf.py lines 99-100): set insertion. -/
def addChild (f : Fut) (c : FutureId) : Fut :=
  if c ∈ f.children then f else { f with children := f.children ++ [c] }

/-- `Future.register` (caf.py lines 71-77) together with
`Template.register` (lines 184-189), which additionally registers every
pending parent.  Parents are created before their children, so the
recursion is bounded by fuel. -/
def registerRec (w : World) : Nat → FutureId → World
  | 0, _ => w
  | fuel + 1, i =>
    let f := getF w i
    if f.registered then w
    else
      let w1 := updFut w i (fun f => { f with registered := true })
      let w2 := f.pending.foldl (fun w p => updFut w p (fun g => addChild g i)) w1
      match f.kind with
      | .template _ _ => f.pending.foldl (fun w p => registerRec w fuel p) w2
      | _ => w2

/-- `Future.result` (caf.py lines 122-127), with the default path of the
embedded variants (`default_result` of `Future`, line 119-120): the
stored result if set, else the supplied default, else `FutureNotDone`
(`none`). -/
def resultF (w : World) (i : FutureId) (dflt : Option Val) : Option Val :=
  match (getF w i).result with
  | some v => some v
  | none => dflt

/-- Decoding hook (`Template.substitute`, caf.py lines 194-204): a JSON
object of the exact single-entry shape `\x7b"Task": \x7b"hashid": h\x7d\x7d` or
`\x7b"Indexor": \x7b"hashid": h\x7d\x7d` stands for an embedded future. -/
def handleHash : JVal → Option String
  | .obj [(tag, .obj [("hashid", .str h)])] =>
    if tag = "Task" ∨ tag = "Indexor" then some h else none
  | _ => none

mutual
/-- Modelled from the spec: `caf2.json_utils.ClassJSONDecoder` is not in
`src/`; per §4.1 decoding parses the canonical JSON string and replaces
every object tagged as `Task`/`Indexor` by the referenced future's
`result(default)`.  Parsing the canonical string is modelled as walking
the syntax tree the string was printed from. -/
def decodeJ (w : World) (futures : List (String × FutureId)) (dflt : Option Val) :
    JVal → Option Val
  | .null => some .null
  | .boolean b => some (.boolean b)
  | .int n => some (.int n)
  | .str s => some (.str s)
  | .arr xs => (decodeJList w futures dflt xs).map .list
  | .obj kvs =>
    match handleHash (.obj kvs) with
    | some hsh => (futures.lookup hsh).bind (fun i => resultF w i dflt)
    | none => (decodeJKVs w futures dflt kvs).map .dict

/-- Decode the elements of a JSON array. -/
def decodeJList (w : World) (futures : List (String × FutureId)) (dflt : Option Val) :
    List JVal → Option (List Val)
  | [] => some []
  | x :: xs =>
    match decodeJ w futures dflt x, decodeJList w futures dflt xs with
    | some v, some vs => some (v :: vs)
    | _, _ => none

/-- Decode the entries of a JSON object. -/
def decodeJKVs (w : World) (futures : List (String × FutureId)) (dflt : Option Val) :
    List (String × JVal) → Option (List (String × Val))
  | [] => some []
  | (k, x) :: kvs =>
    match decodeJ w futures dflt x, decodeJKVs w futures dflt kvs with
    | some v, some vs => some ((k, v) :: vs)
    | _, _ => none
end

/-- `Template.substitute` (caf.py lines 194-204). -/
def substitute (w : World) (i : FutureId) (dflt : Option Val) : Option Val :=
  match (getF w i).kind with
  | .template jval futures => decodeJ w futures dflt jval
  | _ => none

/-- One step of Python `obj[key]`: mapping lookup or list indexing.  A
negative index `n` addresses `len + n` and raises `IndexError` (`none`)
when that is still negative, exactly like the nonnegative out-of-range
case. -/
def walkKey (v : Val) (k : Val) : Option Val :=
  match v, k with
  | .dict kvs, .str s => kvs.lookup s
  | .list xs, .int n =>
    if n < 0 then
      if (- n).toNat ≤ xs.length then xs.get? (xs.length - (- n).toNat) else none
    else xs.get? n.toNat
  | _, _ => none

/-- `Indexor.resolve` (caf.py lines 244-248): walk the key path on the
parent task's result. -/
def resolve (w : World) (i : FutureId) : Option Val :=
  match (getF w i).kind with
  | .indexor t keys => do
    let v ← (getF w t).result
    keys.foldlM walkKey v
  | _ => none

/-- The three completion-cascade steps of the future kernel. -/
inductive CascadeOp where
  | set : FutureId → Val → CascadeOp
  | pdone : FutureId → FutureId → CascadeOp
  | fire : FutureId → CascadeOp

/-- The completion cascade of the future kernel, fuelled:

* `.set i v` is `Future.set_result` (caf.py lines 129-137) together
  with `Task.set_result`'s clearing of `_future_result` (lines 318-320):
  guarded by the asserts (ready and not done), stores the result and
  delivers `parent_done` to every child;
* `.pdone i p` is `Future.parent_done` (lines 112-117): remove the
  parent from `_pending`, fire the ready callbacks if now ready;
* `.fire i` runs the construction-time ready callbacks: a `Template`
  sets its result to `substitute()` (lines 172-174), an `Indexor` to
  `resolve()` (lines 229-231); a plain `Task` installs none. -/
def cascade : Nat → World → CascadeOp → World
  | 0, w, _ => w
  | fuel + 1, w, .set i v =>
    let f := getF w i
    if f.pending.isEmpty ∧ f.result.isNone then
      let w1 := updFut w i (fun f => { f with result := some v, futureResult := none })
      f.children.foldl (fun w c => cascade fuel w (.pdone c i)) w1
    else w
  | fuel + 1, w, .pdone i p =>
    let w1 := updFut w i (fun f => { f with pending := f.pending.erase p })
    if (getF w1 i).pending.isEmpty then cascade fuel w1 (.fire i) else w1
  | fuel + 1, w, .fire i =>
    match (getF w i).kind with
    | .template _ _ =>
      match substitute w i none with
      | some v => cascade fuel w (.set i v)
      | none => w
    | .indexor _ _ =>
      match resolve w i with
      | some v => cascade fuel w (.set i v)
      | none => w
    | .task _ _ => w

/-- `Future.set_result`, entered with the given fuel. -/
def setResultF (fuel : Nat) (w : World) (i : FutureId) (v : Val) : World :=
  cascade fuel w (.set i v)

/-- `Future.parent_done`, entered with the given fuel. -/
def parentDoneF (fuel : Nat) (w : World) (i p : FutureId) : World :=
  cascade (fuel + 1) w (.pdone i p)

/-- The construction-time ready callback, entered with the given fuel. -/
def fireReady (fuel : Nat) (w : World) (i : FutureId) : World :=
  cascade (fuel + 1) w (.fire i)

/-! ## Construction of the three `HashedFuture` variants -/

mutual
/-- Modelled from the spec for the class-hook side: `ClassJSONEncoder`
(`caf2.json_utils`, not in `src/`) replaces every registered class
instance by `\x7b cls_tag: payload \x7d`; the handlers in
`Template.from_object` (caf.py lines 214-217) give payload
`\x7b"hashid": h\x7d` for `Task` and `Indexor`.  A `Template` embedded in a
value has no handler and fails; the tape collects every future
encountered. -/
def encodeV (w : World) : Val → Option (JVal × List FutureId)
  | .null => some (.null, [])
  | .boolean b => some (.boolean b, [])
  | .int n => some (.int n, [])
  | .str s => some (.str s, [])
  | .list xs => (encodeVList w xs).map (fun p => (.arr p.1, p.2))
  | .dict kvs => (encodeVKVs w kvs).map (fun p => (.obj p.1, p.2))
  | .fut i =>
    match (getF w i).kind with
    | .task _ _ => some (.obj [("Task", .obj [("hashid", .str (getF w i).hashid)])], [i])
    | .indexor _ _ => some (.obj [("Indexor", .obj [("hashid", .str (getF w i).hashid)])], [i])
    | .template _ _ => none

/-- Encode the elements of a list, concatenating tapes. -/
def encodeVList (w : World) : List Val → Option (List JVal × List FutureId)
  | [] => some ([], [])
  | x :: xs =>
    match encodeV w x, encodeVList w xs with
    | some (j, t1), some (js, t2) => some (j :: js, t1 ++ t2)
    | _, _ => none

/-- Encode the entries of a dict, concatenating tapes. -/
def encodeVKVs (w : World) : List (String × Val) → Option (List (String × JVal) × List FutureId)
  | [] => some ([], [])
  | (k, x) :: kvs =>
    match encodeV w x, encodeVKVs w kvs with
    | some (j, t1), some (js, t2) => some ((k, j) :: js, t1 ++ t2)
    | _, _ => none
end

/-- Whether a value is itself a `HashedFuture` reference
(`isinstance(obj, HashedFuture)`). -/
def isFutV : Val → Bool
  | .fut _ => true
  | _ => false

/-- `Template.from_object` (caf.py lines 206-220) composed with
`Template.__init__` (lines 166-174): encode the object, hash the
canonical JSON string, create the future with the embedded futures as
parents, and fire the construction-time ready callback immediately when
no parent is pending (`add_ready_callback`, lines 102-106).  Returns the
partially extended world and the new id, or `none` on the constructor's
assert / an unencodable value. -/
def from_object (w : World) (v : Val) : World × Option FutureId :=
  if isFutV v then (w, none)
  else
    match encodeV w v with
    | none => (w, none)
    | some (jv, tape0) =>
      let tape := tape0.dedup
      let jsonstr := dumps jv
      let record : Fut :=
        { kind := .template jv (tape.map (fun i => ((getF w i).hashid, i)))
          hashid := "\x7b\x7d" ++ hash_text jsonstr
          spec := jsonstr
          pending := initPending w tape
          children := [], result := none, registered := false
          futureResult := none, taskChildren := [], defaultVal := none, label := none }
      let i := w.futs.length
      let w1 : World := ⟨w.futs ++ [record]⟩
      if record.pending.isEmpty then (fireReady (w1.futs.length + 1) w1 i, some i)
      else (w1, some i)

/-- `Indexor.__init__` (caf.py lines 224-231): single parent task, path
hashid, and the construction-time ready callback fired immediately when
the task is already done. -/
def mkIndexor (w : World) (t : FutureId) (keys : List Val) : World × FutureId :=
  let record : Fut :=
    { kind := .indexor t keys
      hashid := String.intercalate "/"
        (("@" ++ (getF w t).hashid) :: keys.map pyStrVal)
      spec := String.intercalate "/"
        (("@" ++ (getF w t).hashid) :: keys.map pyStrVal)
      pending := initPending w [t]
      children := [], result := none, registered := false
      futureResult := none, taskChildren := [], defaultVal := none, label := none }
  let i := w.futs.length
  let w1 : World := ⟨w.futs ++ [record]⟩
  if record.pending.isEmpty then (fireReady (w1.futs.length + 1) w1 i, i)
  else (w1, i)

/-- `Task.__getitem__` (caf.py lines 274-275) and `Indexor.__getitem__`
(lines 233-234): indexing a task starts a path, indexing an indexor
extends the path on the same root task.  A template has no
`__getitem__`. -/
def getitemF (w : World) (i : FutureId) (key : Val) : Option (World × FutureId) :=
  match (getF w i).kind with
  | .task _ _ => some (mkIndexor w i [key])
  | .indexor t keys => some (mkIndexor w t (keys ++ [key]))
  | .template _ _ => none

/-- The future id of a value that is a `HashedFuture` reference. -/
def futIdOf : Val → Option FutureId
  | .fut i => some i
  | _ => none

/-- `Task.__init__`'s argument promotion (caf.py lines 262-265): each
argument already a `HashedFuture` is kept, every other argument is
promoted with `Template.from_object`. -/
def promoteArgs (w : World) : List Val → World × Option (List FutureId)
  | [] => (w, some [])
  | v :: rest =>
    match futIdOf v with
    | some i =>
      (match promoteArgs w rest with
       | (w1, some ids) => (w1, some (i :: ids))
       | (w1, none) => (w1, none))
    | none =>
      (match from_object w v with
       | (w1, none) => (w1, none)
       | (w1, some i) =>
         match promoteArgs w1 rest with
         | (w2, some ids) => (w2, some (i :: ids))
         | (w2, none) => (w2, none))

/-- The `spec` property of a task (caf.py lines 297-300): canonical JSON
of the full function name followed by the argument hashids. -/
def taskSpec (func : PyFunc) (argHashids : List String) : String :=
  dumps (.arr (.str (get_fullname func) :: argHashids.map .str))

/-- `Task.__init__` (caf.py lines 260-272): promote the arguments, use
them as parents, and store `hashid = hash_text(spec)`. -/
def taskInit (w : World) (func : PyFunc) (args : List Val)
    (dflt : Option Val) (label : Option String) : World × Option FutureId :=
  match promoteArgs w args with
  | (w1, none) => (w1, none)
  | (w1, some argIds) =>
    let spec := taskSpec func (argIds.map (fun i => (getF w1 i).hashid))
    let record : Fut :=
      { kind := .task func argIds
        hashid := hash_text spec
        spec := spec
        pending := initPending w1 argIds
        children := [], result := none, registered := false
        futureResult := none, taskChildren := [], defaultVal := dflt, label := label }
    (⟨w1.futs ++ [record]⟩, some w1.futs.length)

/-- `Task.has_run` (caf.py lines 315-316). -/
def hasRunF (w : World) (i : FutureId) : Bool :=
  doneF w i ∨ (getF w i).futureResult.isSome

/-! ## The `State` enum (caf.py lines 42-48) and Python `Enum` aliasing -/

/-- The names declared in `class State(Enum)`. -/
inductive StateName where
  | UNREGISTERED | PENDING | READY | RUNNING | HAS_RUN | DONE
deriving DecidableEq, Repr

/-- The values assigned in the source (caf.py lines 42-48).  `READY` and
`DONE` are both assigned `1`. -/
def stateValue : StateName → Int
  | .UNREGISTERED => -1
  | .PENDING => 0
  | .READY => 1
  | .RUNNING => 2
  | .HAS_RUN => 3
  | .DONE => 1

/-- Declaration order of the enum members. -/
def stateDeclOrder : List StateName :=
  [.UNREGISTERED, .PENDING, .READY, .RUNNING, .HAS_RUN, .DONE]

/-- Python `Enum` semantics: a name whose value repeats an earlier
member's value becomes an alias of that member; `State.X` resolves to
the first declared name with the same value. -/
def pyMember (n : StateName) : StateName :=
  (stateDeclOrder.find? (fun m => stateValue m = stateValue n)).getD n

/-- `.name` of an enum member. -/
def stateNameStr : StateName → String
  | .UNREGISTERED => "UNREGISTERED"
  | .PENDING => "PENDING"
  | .READY => "READY"
  | .RUNNING => "RUNNING"
  | .HAS_RUN => "HAS_RUN"
  | .DONE => "DONE"

/-- `Future.state` (caf.py lines 89-97) with the `Task.state` override
(lines 322-327).  The comparisons are between the Python member objects,
so they go through `pyMember`. -/
def stateF (w : World) (i : FutureId) : StateName :=
  let f := getF w i
  let base :=
    if doneF w i then pyMember .DONE
    else if readyF w i then pyMember .READY
    else if f.registered then pyMember .PENDING
    else pyMember .UNREGISTERED
  match f.kind with
  | .task _ _ =>
    if base = pyMember .READY ∧ hasRunF w i then pyMember .HAS_RUN else base
  | _ => base

/-! ## The session (caf.py lines 355-475) -/

/-- `extract_tasks` (caf.py lines 330-344): breadth-first search along
`pending` edges collecting every `Task` reached.  The search is bounded
by fuel; `extractTasks` supplies enough for the finite arena. -/
def extractGo (w : World) : Nat → List FutureId → List FutureId → List FutureId → List FutureId
  | 0, _, _, acc => acc
  | _ + 1, [], _, acc => acc
  | fuel + 1, i :: queue, visited, acc =>
    let visited := i :: visited
    let acc :=
      match (getF w i).kind with
      | .task _ _ => if i ∈ acc then acc else acc ++ [i]
      | _ => acc
    let fresh := (getF w i).pending.filter (fun p => p ∉ visited)
    extractGo w fuel (queue ++ fresh) visited acc

/-- `extract_tasks(fut)` with fuel covering every possible enqueue. -/
def extractTasks (w : World) (i : FutureId) : List FutureId :=
  extractGo w (1 + w.futs.length + (w.futs.map (fun f => f.pending.length)).sum) [i] [] []

/-- Errors out of `Session.create_task`: `ArgNotInSession` (caf.py lines
351-352) or a failed canonical encoding of an argument. -/
inductive CreateErr where
  | argNotInSession | encodeError
deriving DecidableEq, Repr

/-- `Session` state: the deduplication table `_tasks` (hashid to task)
and the optional recording tape `_task_tape` (caf.py lines 358-360). -/
structure Session where
  tasks : List (String × FutureId)
  taskTape : Option (List FutureId)
deriving Repr

/-- The argument futures of a task record. -/
def taskArgs (w : World) (i : FutureId) : List FutureId :=
  match (getF w i).kind with
  | .task _ args => args
  | _ => []

/-- The validation loop of `Session.create_task` (caf.py lines 386-394):
a `Task` argument must be in the session by hashid (`__contains__`,
lines 371-372); any other argument may only reach tasks that are; each
validated argument is registered before the next is examined. -/
def validateArgs (s : Session) : World → List FutureId → World × Bool
  | w, [] => (w, true)
  | w, a :: rest =>
    let ok :=
      match (getF w a).kind with
      | .task _ _ => (s.tasks.lookup (getF w a).hashid).isSome
      | _ => (extractTasks w a).all (fun t => (s.tasks.lookup (getF w t).hashid).isSome)
    if ok then validateArgs s (registerRec w (w.futs.length + 1) a) rest
    else (w, false)

/-- `Session.create_task` (caf.py lines 374-397).  The candidate task is
built first; a hit in `_tasks` returns the stored task; in either case
the returned task is appended to the active tape (the `finally` block);
otherwise the arguments are validated and registered, the task is
registered and inserted.  The world and session reflect the mutations
performed up to an exception. -/
def createTask (w : World) (s : Session) (func : PyFunc) (args : List Val) :
    World × Session × Except CreateErr FutureId :=
  match taskInit w func args none none with
  | (w1, none) => (w1, s, .error .encodeError)
  | (w1, some tid) =>
    let candHash := (getF w1 tid).hashid
    match s.tasks.lookup candHash with
    | some existing =>
      (w1, { s with taskTape := s.taskTape.map (fun t => t ++ [existing]) }, .ok existing)
    | none =>
      let s1 : Session := { s with taskTape := s.taskTape.map (fun t => t ++ [tid]) }
      match validateArgs s1 w1 (taskArgs w1 tid) with
      | (w2, false) => (w2, s1, .error .argNotInSession)
      | (w2, true) =>
        let w3 := registerRec w2 (w2.futs.length + 1) tid
        (w3, { s1 with tasks := (candHash, tid) :: s1.tasks }, .ok tid)

/-- `Session.record` (caf.py lines 428-434): set `_task_tape` to the
given tape, run the body (which may finish normally or raise), and in
the `finally` block set `_task_tape = None`. -/
def recordRun (s : Session) (tape : List FutureId)
    (body : Session → Session × Except Unit Unit) : Session × Except Unit Unit :=
  let r := body { s with taskTape := some tape }
  ({ r.1 with taskTape := none }, r.2)

/-! ## Arena access lemmas -/

theorem getF_set_self (l : List Fut) (i : Nat) (f : Fut) (h : i < l.length) :
    getF ⟨l.set i f⟩ i = f := by
  simp [getF, List.getD, List.getElem?_set_self, h]

theorem getF_set_other (l : List Fut) (i j : Nat) (f : Fut) (h : j ≠ i) :
    getF ⟨l.set i f⟩ j = getF ⟨l⟩ j := by
  simp [getF, List.getD, List.getElem?_set_ne (Ne.symm h)]

theorem getF_updFut_other (w : World) (i j : FutureId) (g : Fut → Fut) (h : j ≠ i) :
    getF (updFut w i g) j = getF w j := by
  simpa [updFut] using getF_set_other w.futs i j _ h

theorem getF_updFut_self (w : World) (i : FutureId) (g : Fut → Fut)
    (h : i < w.futs.length) :
    getF (updFut w i g) i = g (getF w i) := by
  simpa [updFut] using getF_set_self w.futs i _ h

theorem updFut_length (w : World) (i : FutureId) (g : Fut → Fut) :
    (updFut w i g).futs.length = w.futs.length := by
  simp [updFut]

theorem getF_append_old (l : List Fut) (r : Fut) (j : Nat) (h : j < l.length) :
    getF ⟨l ++ [r]⟩ j = getF ⟨l⟩ j := by
  simp [getF, List.getD, List.getElem?_append_left h]

theorem getF_append_new (l : List Fut) (r : Fut) :
    getF ⟨l ++ [r]⟩ l.length = r := by
  simp [getF, List.getD, List.getElem?_append_right (Nat.le_refl _)]

theorem getF_out_of_range (w : World) (j : FutureId) (h : w.futs.length ≤ j) :
    getF w j = default := by
  simp [getF, List.getD, List.getElem?_eq_none h]

theorem getF_updFut_ge (w : World) (i : FutureId) (g : Fut → Fut)
    (h : w.futs.length ≤ i) : getF (updFut w i g) i = getF w i := by
  rw [getF_out_of_range _ i h, getF_out_of_range]
  simpa [updFut] using h

/-! ## The result cascade only writes `result`, `futureResult`, `pending` -/

/-- Two future records agreeing on every field the cascade never writes. -/
def sameSkel (f g : Fut) : Prop :=
  g.kind = f.kind ∧ g.hashid = f.hashid ∧ g.spec = f.spec ∧
  g.registered = f.registered ∧ g.children = f.children

theorem sameSkel_refl (f : Fut) : sameSkel f f := ⟨rfl, rfl, rfl, rfl, rfl⟩

theorem sameSkel_trans {f g h : Fut} (h1 : sameSkel f g) (h2 : sameSkel g h) :
    sameSkel f h := by
  obtain ⟨a1, b1, c1, d1, e1⟩ := h1
  obtain ⟨a2, b2, c2, d2, e2⟩ := h2
  exact ⟨a2.trans a1, b2.trans b1, c2.trans c1, d2.trans d1, e2.trans e1⟩

/-- World evolution that leaves every record's skeleton in place. -/
def skelPres (w w' : World) : Prop :=
  w'.futs.length = w.futs.length ∧ ∀ j, sameSkel (getF w j) (getF w' j)

theorem skelPres_refl (w : World) : skelPres w w :=
  ⟨rfl, fun _ => sameSkel_refl _⟩

theorem skelPres_trans {w1 w2 w3 : World} (h1 : skelPres w1 w2)
    (h2 : skelPres w2 w3) : skelPres w1 w3 :=
  ⟨h2.1.trans h1.1, fun j => sameSkel_trans (h1.2 j) (h2.2 j)⟩

theorem skelPres_updFut (w : World) (i : FutureId) (g : Fut → Fut)
    (hg : ∀ f, sameSkel f (g f)) : skelPres w (updFut w i g) := by
  refine ⟨updFut_length w i g, fun j => ?_⟩
  by_cases hj : j = i
  · subst hj
    by_cases hlt : j < w.futs.length
    · rw [getF_updFut_self w j g hlt]; exact hg _
    · rw [getF_updFut_ge w j g (Nat.le_of_not_lt hlt)]; exact sameSkel_refl _
  · rw [getF_updFut_other w i j g hj]; exact sameSkel_refl _

theorem foldl_skelPres {α : Type} (g : World → α → World)
    (hstep : ∀ w a, skelPres w (g w a)) :
    ∀ (l : List α) (w : World), skelPres w (l.foldl g w) := by
  intro l
  induction l with
  | nil => intro w; exact skelPres_refl w
  | cons a l ih => intro w; exact skelPres_trans (hstep w a) (ih (g w a))

theorem cascade_zero (w : World) (op : CascadeOp) : cascade 0 w op = w := by
  rw [cascade]

theorem cascade_set (fuel : Nat) (w : World) (i : FutureId) (v : Val) :
    cascade (fuel + 1) w (.set i v) =
      if (getF w i).pending.isEmpty ∧ (getF w i).result.isNone then
        (getF w i).children.foldl (fun w c => cascade fuel w (.pdone c i))
          (updFut w i (fun f => { f with result := some v, futureResult := none }))
      else w := by
  rw [cascade]

theorem cascade_pdone (fuel : Nat) (w : World) (i p : FutureId) :
    cascade (fuel + 1) w (.pdone i p) =
      (if (getF (updFut w i (fun f => { f with pending := f.pending.erase p })) i).pending.isEmpty
       then cascade fuel (updFut w i (fun f => { f with pending := f.pending.erase p })) (.fire i)
       else updFut w i (fun f => { f with pending := f.pending.erase p })) := by
  rw [cascade]

theorem cascade_fire (fuel : Nat) (w : World) (i : FutureId) :
    cascade (fuel + 1) w (.fire i) =
      match (getF w i).kind with
      | .template _ _ =>
        match substitute w i none with
        | some v => cascade fuel w (.set i v)
        | none => w
      | .indexor _ _ =>
        match resolve w i with
        | some v => cascade fuel w (.set i v)
        | none => w
      | .task _ _ => w := by
  rw [cascade]

theorem fireReady_eq (fuel : Nat) (w : World) (i : FutureId) :
    fireReady fuel w i =
      match (getF w i).kind with
      | .template _ _ =>
        match substitute w i none with
        | some v => setResultF fuel w i v
        | none => w
      | .indexor _ _ =>
        match resolve w i with
        | some v => setResultF fuel w i v
        | none => w
      | .task _ _ => w := by
  rw [fireReady, cascade_fire]
  rfl

theorem cascade_skelPres : ∀ (fuel : Nat) (w : World) (op : CascadeOp),
    skelPres w (cascade fuel w op) := by
  intro fuel
  induction fuel with
  | zero => intro w op; rw [cascade_zero]; exact skelPres_refl w
  | succ fuel ih =>
    intro w op
    match op with
    | .set i v =>
      rw [cascade_set]
      split
      · exact skelPres_trans
          (skelPres_updFut w i (fun f => { f with result := some v, futureResult := none })
            (fun f => ⟨rfl, rfl, rfl, rfl, rfl⟩))
          (foldl_skelPres _ (fun w c => ih w (.pdone c i)) _ _)
      · exact skelPres_refl w
    | .pdone i p =>
      rw [cascade_pdone]
      have h1 : skelPres w (updFut w i (fun f => { f with pending := f.pending.erase p })) :=
        skelPres_updFut w i _ (fun f => sameSkel_refl _)
      split
      · exact skelPres_trans h1 (ih _ _)
      · exact h1
    | .fire i =>
      rw [cascade_fire]
      split
      · split
        · exact ih w _
        · exact skelPres_refl w
      · split
        · exact ih w _
        · exact skelPres_refl w
      · exact skelPres_refl w

/-! ## Constructor-level lemmas -/

theorem setResultF_no_children (fuel : Nat) (w : World) (i : FutureId) (v : Val)
    (hc : (getF w i).children = []) :
    setResultF (fuel + 1) w i v =
      if (getF w i).pending.isEmpty ∧ (getF w i).result.isNone then
        updFut w i (fun f => { f with result := some v, futureResult := none })
      else w := by
  rw [setResultF, cascade_set, hc]
  rfl

/-- The record a successful `from_object` appends (before the immediate
ready-callback may set its result). -/
def templateRecord (w : World) (jv : JVal) (tape0 : List FutureId) : Fut :=
  { kind := .template jv (tape0.dedup.map (fun i => ((getF w i).hashid, i)))
    hashid := "\x7b\x7d" ++ hash_text (dumps jv)
    spec := dumps jv
    pending := initPending w tape0.dedup
    children := [], result := none, registered := false
    futureResult := none, taskChildren := [], defaultVal := none, label := none }

theorem from_object_eq (w : World) (v : Val) (hf : isFutV v = false) :
    from_object w v =
      match encodeV w v with
      | none => (w, none)
      | some (jv, tape0) =>
        if (templateRecord w jv tape0).pending.isEmpty then
          (fireReady (w.futs.length + 2) ⟨w.futs ++ [templateRecord w jv tape0]⟩
            w.futs.length, some w.futs.length)
        else (⟨w.futs ++ [templateRecord w jv tape0]⟩, some w.futs.length) := by
  rw [from_object, hf]
  cases encodeV w v with
  | none => rfl
  | some p =>
    cases p with
    | mk jv tape0 =>
      show (if (templateRecord w jv tape0).pending.isEmpty then _ else _) = _
      simp only [templateRecord, List.length_append, List.length_singleton]

/-- Unpacking a successful `Template.from_object`: the new record's
fields, and the fact that no existing record is touched (the immediate
ready-callback can only write the fresh record, which has no
children). -/
theorem from_object_ok (w : World) (v : Val) (w' : World) (i : FutureId)
    (h : from_object w v = (w', some i)) :
    ∃ jv tape, encodeV w v = some (jv, tape) ∧ i = w.futs.length ∧
      w'.futs.length = w.futs.length + 1 ∧
      (∀ j, j < w.futs.length → getF w' j = getF w j) ∧
      (getF w' i).kind = .template jv (tape.dedup.map (fun t => ((getF w t).hashid, t))) ∧
      (getF w' i).spec = dumps jv ∧
      (getF w' i).hashid = "\x7b\x7d" ++ hash_text (dumps jv) := by
  have hf : isFutV v = false := by
    cases v <;> first
      | rfl
      | (rw [from_object] at h; simp [isFutV] at h)
  rw [from_object_eq w v hf] at h
  rcases henc : encodeV w v with _ | ⟨jv, tape0⟩ <;> rw [henc] at h <;> dsimp only at h
  · exact absurd (congrArg Prod.snd h) (by simp)
  · refine ⟨jv, tape0, rfl, ?_⟩
    have hw1new : getF ⟨w.futs ++ [templateRecord w jv tape0]⟩ w.futs.length =
        templateRecord w jv tape0 := getF_append_new _ _
    have hw1old : ∀ j, j < w.futs.length →
        getF ⟨w.futs ++ [templateRecord w jv tape0]⟩ j = getF w j :=
      fun j hj => getF_append_old _ _ j hj
    have hw1len : (⟨w.futs ++ [templateRecord w jv tape0]⟩ : World).futs.length =
        w.futs.length + 1 := by simp
    by_cases hp : (templateRecord w jv tape0).pending.isEmpty
    · rw [if_pos hp] at h
      have hi : i = w.futs.length := by
        have := congrArg Prod.snd h
        simpa using this.symm
      subst hi
      have hwE : w' = fireReady (w.futs.length + 2)
          ⟨w.futs ++ [templateRecord w jv tape0]⟩ w.futs.length :=
        (congrArg Prod.fst h).symm
      set w1 : World := ⟨w.futs ++ [templateRecord w jv tape0]⟩ with hw1
      -- the fresh record is a template, so the callback substitutes and may
      -- set the fresh record's result; it has no children, so nothing else moves
      have hkind : (getF w1 w.futs.length).kind =
          .template jv (tape0.dedup.map (fun t => ((getF w t).hashid, t))) := by
        rw [hw1new]; rfl
      have hchildren : (getF w1 w.futs.length).children = [] := by rw [hw1new]; rfl
      have hfire : ∀ u, setResultF (w.futs.length + 2) w1 w.futs.length u =
            updFut w1 w.futs.length
              (fun f => { f with result := some u, futureResult := none }) ∨
          setResultF (w.futs.length + 2) w1 w.futs.length u = w1 := by
        intro u
        rw [show w.futs.length + 2 = (w.futs.length + 1) + 1 from rfl,
          setResultF_no_children _ _ _ _ hchildren]
        split
        · exact Or.inl rfl
        · exact Or.inr rfl
      have hcases : w' = w1 ∨ ∃ u, w' =
          updFut w1 w.futs.length
            (fun f => { f with result := some u, futureResult := none }) := by
        rw [hwE, fireReady_eq, hkind]
        rcases hsub : substitute w1 w.futs.length none with _ | u
        · exact Or.inl rfl
        · rcases hfire u with h1 | h1
          · exact Or.inr ⟨u, h1⟩
          · exact Or.inl h1
      rcases hcases with hc | ⟨u, hc⟩ <;> subst hc
      · exact ⟨rfl, hw1len, hw1old, hkind, by rw [hw1new]; rfl, by rw [hw1new]; rfl⟩
      · have hilt : w.futs.length < w1.futs.length := by
          rw [hw1len]; exact Nat.lt_succ_self _
        refine ⟨rfl, by rw [updFut_length, hw1len], ?_, ?_, ?_, ?_⟩
        · intro j hj
          rw [getF_updFut_other _ _ _ _ (Nat.ne_of_lt hj), hw1old j hj]
        · rw [getF_updFut_self _ _ _ hilt, hw1new]; rfl
        · rw [getF_updFut_self _ _ _ hilt, hw1new]; rfl
        · rw [getF_updFut_self _ _ _ hilt, hw1new]; rfl
    · rw [if_neg hp] at h
      have hi : i = w.futs.length := by
        have := congrArg Prod.snd h
        simpa using this.symm
      subst hi
      have hwE : w' = ⟨w.futs ++ [templateRecord w jv tape0]⟩ :=
        (congrArg Prod.fst h).symm
      subst hwE
      exact ⟨rfl, hw1len, hw1old, by rw [hw1new]; rfl, by rw [hw1new]; rfl,
        by rw [hw1new]; rfl⟩

/-- What `Task.__init__`'s promotion guarantees per argument: a future
argument is kept as is, any other argument became a `Template` whose
spec is its canonical JSON encoding. -/
def promotedOK (w : World) (v : Val) (i : FutureId) : Prop :=
  match futIdOf v with
  | some j => i = j
  | none => ∃ jv futs, (getF w i).kind = .template jv futs ∧ (getF w i).spec = dumps jv

theorem futIdOf_none_isFutV (v : Val) (h : futIdOf v = none) : isFutV v = false := by
  cases v <;> simp [futIdOf, isFutV] at h ⊢

theorem promotedOK_mono (w w' : World) (v : Val) (i : FutureId)
    (hpres : getF w' i = getF w i) (h : promotedOK w v i) : promotedOK w' v i := by
  unfold promotedOK at h ⊢
  revert h
  rcases hfi : futIdOf v with _ | j <;> intro h <;> dsimp only at h ⊢
  · obtain ⟨jv, futs, h1, h2⟩ := h
    exact ⟨jv, futs, hpres ▸ h1, hpres ▸ h2⟩
  · exact h

theorem promoteArgs_ok : ∀ (args : List Val) (w w1 : World) (ids : List FutureId),
    promoteArgs w args = (w1, some ids) →
    (∀ v ∈ args, ∀ j, futIdOf v = some j → j < w.futs.length) →
    w.futs.length ≤ w1.futs.length ∧
    (∀ i ∈ ids, i < w1.futs.length) ∧
    (∀ j, j < w.futs.length → getF w1 j = getF w j) ∧
    List.Forall₂ (promotedOK w1) args ids := by
  intro args
  induction args with
  | nil =>
    intro w w1 ids h _
    rw [promoteArgs] at h
    have h1 : w = w1 := congrArg Prod.fst h
    have h2 : ids = [] := by
      have := congrArg Prod.snd h
      simpa using this.symm
    subst h1; subst h2
    exact ⟨Nat.le_refl _, by simp, fun j _ => rfl, List.Forall₂.nil⟩
  | cons v rest ih =>
    intro w w1 ids h hv
    rw [promoteArgs] at h
    rcases hfi : futIdOf v with _ | k <;> rw [hfi] at h <;> dsimp only at h
    · -- promoted through `Template.from_object`
      rcases hfo : from_object w v with ⟨wA, oA⟩ <;> rw [hfo] at h
      rcases oA with _ | k <;> dsimp only at h
      · exact absurd (congrArg Prod.snd h) (by simp)
      · rcases hrest : promoteArgs wA rest with ⟨wR, oR⟩ <;> rw [hrest] at h
        rcases oR with _ | idsR <;> dsimp only at h
        · exact absurd (congrArg Prod.snd h) (by simp)
        · obtain rfl : w1 = wR := (congrArg Prod.fst h).symm
          obtain rfl : ids = k :: idsR := by
            have := congrArg Prod.snd h
            simpa using this.symm
          obtain ⟨jvA, tapeA, _, hkA, hlenA, holdA, hkindA, hspecA, _⟩ :=
            from_object_ok w v wA k hfo
          have hvA : ∀ u ∈ rest, ∀ j, futIdOf u = some j → j < wA.futs.length := by
            intro u hu j hj
            exact Nat.lt_of_lt_of_le (hv u (List.mem_cons_of_mem _ hu) j hj)
              (by rw [hlenA]; exact Nat.le_succ _)
          obtain ⟨hle, hbnd, hpres, hall⟩ := ih wA w1 idsR hrest hvA
          have hkw : k < wA.futs.length := by rw [hlenA, hkA]; exact Nat.lt_succ_self _
          have hkfields : getF w1 k = getF wA k := hpres k hkw
          refine ⟨?_, ?_, ?_, ?_⟩
          · calc w.futs.length ≤ wA.futs.length := by rw [hlenA]; exact Nat.le_succ _
              _ ≤ w1.futs.length := hle
          · intro i hi
            rcases List.mem_cons.mp hi with rfl | hi
            · exact Nat.lt_of_lt_of_le hkw hle
            · exact hbnd i hi
          · intro j hj
            rw [hpres j (Nat.lt_of_lt_of_le hj (by rw [hlenA]; exact Nat.le_succ _)),
              holdA j hj]
          · refine List.Forall₂.cons ?_ hall
            unfold promotedOK
            rw [hfi]
            exact ⟨jvA, _, by rw [hkfields, hkindA], by rw [hkfields, hspecA]⟩
    · -- a `HashedFuture` argument is kept
      rcases hrest : promoteArgs w rest with ⟨wR, oR⟩ <;> rw [hrest] at h
      rcases oR with _ | idsR <;> dsimp only at h
      · exact absurd (congrArg Prod.snd h) (by simp)
      · obtain rfl : w1 = wR := (congrArg Prod.fst h).symm
        obtain rfl : ids = k :: idsR := by
          have := congrArg Prod.snd h
          simpa using this.symm
        obtain ⟨hle, hbnd, hpres, hall⟩ := ih w w1 idsR hrest
          (fun u hu j hj => hv u (List.mem_cons_of_mem _ hu) j hj)
        refine ⟨hle, ?_, hpres, ?_⟩
        · intro i hi
          rcases List.mem_cons.mp hi with rfl | hi
          · exact Nat.lt_of_lt_of_le (hv v (List.mem_cons_self _ _) i hfi) hle
          · exact hbnd i hi
        · refine List.Forall₂.cons ?_ hall
          unfold promotedOK
          rw [hfi]

/-- The record `Task.__init__` appends. -/
def taskRecord (w1 : World) (func : PyFunc) (ids : List FutureId)
    (d : Option Val) (lbl : Option String) : Fut :=
  { kind := .task func ids
    hashid := hash_text (taskSpec func (ids.map (fun i => (getF w1 i).hashid)))
    spec := taskSpec func (ids.map (fun i => (getF w1 i).hashid))
    pending := initPending w1 ids
    children := [], result := none, registered := false
    futureResult := none, taskChildren := [], defaultVal := d, label := lbl }

theorem taskInit_ok (w : World) (func : PyFunc) (args : List Val) (d : Option Val)
    (lbl : Option String) (w' : World) (tid : FutureId)
    (h : taskInit w func args d lbl = (w', some tid)) :
    ∃ w1 ids, promoteArgs w args = (w1, some ids) ∧
      tid = w1.futs.length ∧ w' = ⟨w1.futs ++ [taskRecord w1 func ids d lbl]⟩ := by
  rw [taskInit] at h
  rcases hp : promoteArgs w args with ⟨w1, o⟩ <;> rw [hp] at h
  rcases o with _ | ids <;> dsimp only at h
  · exact absurd (congrArg Prod.snd h) (by simp)
  · refine ⟨w1, ids, rfl, ?_, ?_⟩
    · have := congrArg Prod.snd h
      simpa using this.symm
    · exact (congrArg Prod.fst h).symm

theorem forall₂_promotedOK_mono (w w' : World) :
    ∀ (xs : List Val) (ys : List FutureId), List.Forall₂ (promotedOK w) xs ys →
    (∀ y ∈ ys, getF w' y = getF w y) → List.Forall₂ (promotedOK w') xs ys := by
  intro xs ys h
  induction h with
  | nil => intro _; exact .nil
  | cons hxy hrest ihf =>
    intro hm
    exact .cons (promotedOK_mono _ _ _ _ (hm _ (List.mem_cons_self _ _)) hxy)
      (ihf (fun y hy => hm y (List.mem_cons_of_mem _ hy)))

/-- C1: a task's `spec` is the canonical JSON of the full function name
followed by its argument hashids (the arguments having been promoted to
futures), and its `hashid` is `hash_text` of that spec. -/
theorem C1_task_spec_hash (w : World) (func : PyFunc) (args : List Val)
    (d : Option Val) (lbl : Option String) (w' : World) (tid : FutureId)
    (h : taskInit w func args d lbl = (w', some tid))
    (hargs : ∀ v ∈ args, ∀ j, futIdOf v = some j → j < w.futs.length) :
    (getF w' tid).spec =
      dumps (.arr (.str (get_fullname func) ::
        (taskArgs w' tid).map (fun i => .str (getF w' i).hashid))) ∧
    (getF w' tid).hashid = hash_text ((getF w' tid).spec) ∧
    List.Forall₂ (promotedOK w') args (taskArgs w' tid) := by
  obtain ⟨w1, ids, hp, htid, hw⟩ := taskInit_ok w func args d lbl w' tid h
  obtain ⟨hle, hbnd, hpres, hall⟩ := promoteArgs_ok args w w1 ids hp hargs
  subst htid; subst hw
  have hnew : getF ⟨w1.futs ++ [taskRecord w1 func ids d lbl]⟩ w1.futs.length =
      taskRecord w1 func ids d lbl := getF_append_new _ _
  have holdW : ∀ i ∈ ids,
      getF ⟨w1.futs ++ [taskRecord w1 func ids d lbl]⟩ i = getF w1 i :=
    fun i hi => getF_append_old _ _ i (hbnd i hi)
  have hargsEq : taskArgs ⟨w1.futs ++ [taskRecord w1 func ids d lbl]⟩
      w1.futs.length = ids := by
    unfold taskArgs
    rw [hnew]
    rfl
  refine ⟨?_, ?_, ?_⟩
  · rw [hargsEq, hnew]
    show taskSpec func (ids.map (fun i => (getF w1 i).hashid)) = _
    unfold taskSpec
    rw [List.map_map]
    have hm : List.map (JVal.str ∘ fun i => (getF w1 i).hashid) ids =
        List.map (fun i =>
          JVal.str (getF ⟨w1.futs ++ [taskRecord w1 func ids d lbl]⟩ i).hashid) ids :=
      List.map_congr_left (fun i hi => by
        simp only [Function.comp]
        rw [holdW i hi])
    rw [hm]
  · rw [hnew]; rfl
  · rw [hargsEq]
    exact forall₂_promotedOK_mono w1 _ args ids hall holdW

/-- A concrete world holding a task `tests:fib(1)` (ids: 0 the promoted
template of `1`, 1 the task). -/
def exTaskWorld : World :=
  (taskInit ⟨[]⟩ ⟨"tests", "fib"⟩ [Val.int 1] none none).1

/-- Witness for C1 at the concrete task `tests:fib(1)`. -/
theorem C1_task_spec_hash_witness :
    (getF exTaskWorld 1).spec =
      dumps (.arr (.str (get_fullname ⟨"tests", "fib"⟩) ::
        (taskArgs exTaskWorld 1).map (fun i => .str (getF exTaskWorld i).hashid))) ∧
    (getF exTaskWorld 1).hashid = hash_text ((getF exTaskWorld 1).spec) ∧
    List.Forall₂ (promotedOK exTaskWorld) [Val.int 1] (taskArgs exTaskWorld 1) :=
  C1_task_spec_hash ⟨[]⟩ ⟨"tests", "fib"⟩ [Val.int 1] none none exTaskWorld 1
    (by rfl)
    (by
      intro v hv j hj
      rcases List.mem_singleton.mp hv with rfl
      simp [futIdOf] at hj)

/-- C8 counterexample: with a tape already installed, leaving `record`
does not restore it; `task_tape` is `None` afterwards. -/
theorem C8_record_counterexample :
    ¬ ((recordRun ⟨[], some [42]⟩ [7] (fun s => (s, .ok ()))).1.taskTape
        = some [42]) := by
  decide

/-- C8 (amended): `record(tape)` runs the body with `task_tape = tape`
and on exit, normal or exceptional, sets `task_tape` to `None` — which
equals the pre-entry value exactly when no recording was active
before. -/
theorem C8_record_scope (s : Session) (tape : List FutureId)
    (body : Session → Session × Except Unit Unit) :
    recordRun s tape body =
      ({ (body { s with taskTape := some tape }).1 with taskTape := none },
       (body { s with taskTape := some tape }).2) ∧
    (s.taskTape = none → (recordRun s tape body).1.taskTape = s.taskTape) := by
  constructor
  · rfl
  · intro h
    rw [h]
    rfl

/-- Witness for C8 at a concrete session and body. -/
theorem C8_record_scope_witness :
    (recordRun ⟨[], none⟩ [7] (fun s => (s, .ok ()))).1.taskTape
      = (⟨[], none⟩ : Session).taskTape :=
  (C8_record_scope ⟨[], none⟩ [7] (fun s => (s, .ok ()))).2 rfl

/-- Whether `sub` occurs as a contiguous substring of `s`. -/
def containsSub (s sub : String) : Bool :=
  (List.range (s.data.length + 1)).any (fun k => sub.data.isPrefixOf (s.data.drop k))

set_option maxRecDepth 8192 in
/-- C7 counterexample: the spec of the concrete task `tests:fib(1)` —
a canonical JSON string the engine hashes — contains `", "`, a space
after the item separator, so it is not free of insignificant
whitespace. -/
theorem C7_spec_whitespace_counterexample :
    (taskInit ⟨[]⟩ ⟨"tests", "fib"⟩ [Val.int 1] none none).2 = some 1 ∧
    containsSub (getF exTaskWorld 1).spec ", " = true := by
  exact ⟨rfl, rfl⟩

theorem mem_insertKV (kv x : String × String) :
    ∀ l : List (String × String), x ∈ insertKV kv l ↔ x = kv ∨ x ∈ l := by
  intro l
  induction l with
  | nil => simp [insertKV]
  | cons y l ih =>
    rw [insertKV]
    split
    · simp [List.mem_cons]
    · simp only [List.mem_cons, ih]
      tauto

theorem insertKV_sorted (kv : String × String) :
    ∀ l : List (String × String), l.Pairwise (fun a b => a.1 ≤ b.1) →
      (insertKV kv l).Pairwise (fun a b => a.1 ≤ b.1) := by
  intro l
  induction l with
  | nil => intro _; exact List.pairwise_singleton _ _
  | cons y l ih =>
    intro h
    rw [List.pairwise_cons] at h
    rw [insertKV]
    split
    · refine List.pairwise_cons.mpr ⟨?_, List.pairwise_cons.mpr ⟨h.1, h.2⟩⟩
      intro z hz
      rcases List.mem_cons.mp hz with rfl | hz
      · exact le_of_lt (by assumption)
      · exact le_trans (le_of_lt (by assumption)) (h.1 z hz)
    · refine List.pairwise_cons.mpr ⟨?_, ih h.2⟩
      intro z hz
      rcases (mem_insertKV kv z l).mp hz with rfl | hz
      · exact le_of_not_lt (by assumption)
      · exact h.1 z hz

theorem sortKeys_sorted (kvs : List (String × String)) :
    (sortKeys kvs).Pairwise (fun a b => a.1 ≤ b.1) := by
  unfold sortKeys
  induction kvs with
  | nil => exact List.Pairwise.nil
  | cons kv kvs ih => exact insertKV_sorted kv _ ih

theorem dumps_arr_last (xs : List JVal) :
    (dumps (.arr xs)).data.getLast? = some ']' := by
  show (("[" ++ dumpsList xs ++ "]" : String)).data.getLast? = some ']'
  rw [String.data_append, String.data_append,
    show ("]" : String).data = [']'] from rfl, List.getLast?_concat]

/-- C7 (amended): the strings the engine hashes are exactly the
CPython-canonical serialisations: a task's `spec` is `taskSpec` (the
sorted-keys `json.dumps` of the name/hashid array) and ends in `]` (no
trailing whitespace), and `from_object`'s jsonstr is the sorted-keys
`dumps` of the encoded object, hashed as `"\x7b\x7d" + hash_text`.  Object
keys are serialised in ascending order (`sortKeys` sorts).  However the
default CPython separators `", "` and `": "` put one space after each
separator, so the strings are not whitespace-free. -/
theorem C7_canonical_json_amended :
    (∀ kvs, (sortKeys kvs).Pairwise (fun a b => a.1 ≤ b.1)) ∧
    (∀ w func args d lbl w' tid, taskInit w func args d lbl = (w', some tid) →
      ∃ hashids, (getF w' tid).spec = taskSpec func hashids ∧
        (getF w' tid).spec.data.getLast? = some ']') ∧
    (∀ w v w' i, from_object w v = (w', some i) →
      ∃ jv, (getF w' i).spec = dumps jv ∧
        (getF w' i).hashid = "\x7b\x7d" ++ hash_text ((getF w' i).spec)) := by
  refine ⟨sortKeys_sorted, ?_, ?_⟩
  · intro w func args d lbl w' tid h
    obtain ⟨w1, ids, hp, htid, hw⟩ := taskInit_ok w func args d lbl w' tid h
    subst htid; subst hw
    rw [getF_append_new]
    exact ⟨ids.map (fun i => (getF w1 i).hashid), rfl, dumps_arr_last _⟩
  · intro w v w' i h
    obtain ⟨jv, tape, _, _, _, _, _, hspec, hhash⟩ := from_object_ok w v w' i h
    exact ⟨jv, hspec, by rw [hhash, hspec]⟩

/-- Witness for the amended C7 at the concrete task `tests:fib(1)` and
the template of `1`. -/
theorem C7_canonical_json_amended_witness :
    (∃ hashids, (getF exTaskWorld 1).spec = taskSpec ⟨"tests", "fib"⟩ hashids ∧
      (getF exTaskWorld 1).spec.data.getLast? = some ']') ∧
    (∃ jv, (getF (from_object ⟨[]⟩ (.int 1)).1 0).spec = dumps jv ∧
      (getF (from_object ⟨[]⟩ (.int 1)).1 0).hashid =
        "\x7b\x7d" ++ hash_text ((getF (from_object ⟨[]⟩ (.int 1)).1 0).spec)) :=
  ⟨C7_canonical_json_amended.2.1 ⟨[]⟩ ⟨"tests", "fib"⟩ [Val.int 1] none none
      exTaskWorld 1 (by rfl),
   C7_canonical_json_amended.2.2 ⟨[]⟩ (.int 1) (from_object ⟨[]⟩ (.int 1)).1 0 (by rfl)⟩

theorem taskInit_some (w : World) (func : PyFunc) (args : List Val) (d : Option Val)
    (lbl : Option String) (wa : World) (ids : List FutureId)
    (hpa : promoteArgs w args = (wa, some ids)) :
    taskInit w func args d lbl =
      (⟨wa.futs ++ [taskRecord wa func ids d lbl]⟩, some wa.futs.length) := by
  rw [taskInit, hpa]
  rfl

/-- The hashid of the candidate task `create_task` builds: `hash_text`
of the canonical spec over the promoted argument hashids. -/
def candHash (wa : World) (func : PyFunc) (ids : List FutureId) : String :=
  hash_text (taskSpec func (ids.map (fun i => (getF wa i).hashid)))

theorem createTask_some_unfold (w : World) (s : Session) (func : PyFunc)
    (args : List Val) (wa : World) (ids : List FutureId)
    (hpa : promoteArgs w args = (wa, some ids)) :
    createTask w s func args =
      (match s.tasks.lookup (candHash wa func ids) with
       | some existing =>
         (⟨wa.futs ++ [taskRecord wa func ids none none]⟩,
          { s with taskTape := s.taskTape.map (fun t => t ++ [existing]) },
          .ok existing)
       | none =>
         let s1 : Session :=
           { s with taskTape := s.taskTape.map (fun t => t ++ [wa.futs.length]) }
         match validateArgs s1 ⟨wa.futs ++ [taskRecord wa func ids none none]⟩
             (taskArgs ⟨wa.futs ++ [taskRecord wa func ids none none]⟩ wa.futs.length) with
         | (w2, false) => (w2, s1, .error .argNotInSession)
         | (w2, true) =>
           let w3 := registerRec w2 (w2.futs.length + 1) wa.futs.length
           (w3, { s1 with tasks := (candHash wa func ids, wa.futs.length) :: s1.tasks },
            .ok wa.futs.length)) := by
  rw [createTask, taskInit_some w func args none none wa ids hpa]
  have hch : (getF ⟨wa.futs ++ [taskRecord wa func ids none none]⟩
      wa.futs.length).hashid = candHash wa func ids := by
    rw [getF_append_new]; rfl
  dsimp only
  rw [hch]

/-- C2: a second `create_task` call with the same rule and arguments of
pairwise equal hashids returns the very task object the first call
returned — the one stored in the session table under that hashid. -/
theorem C2_create_task_dedup
    (w : World) (s : Session) (func : PyFunc) (args args2 : List Val)
    (w1 : World) (s1 : Session) (t1 : FutureId)
    (wa : World) (ids : List FutureId) (wa2 : World) (ids2 : List FutureId)
    (h1 : createTask w s func args = (w1, s1, .ok t1))
    (hpa : promoteArgs w args = (wa, some ids))
    (hpa2 : promoteArgs w1 args2 = (wa2, some ids2))
    (hids : ids2.map (fun i => (getF wa2 i).hashid) =
      ids.map (fun i => (getF wa i).hashid)) :
    s1.tasks.lookup (candHash wa func ids) = some t1 ∧
    (createTask w1 s1 func args2).2.2 = .ok t1 := by
  have hch2 : candHash wa2 func ids2 = candHash wa func ids := by
    unfold candHash
    rw [hids]
  have hlk : s1.tasks.lookup (candHash wa func ids) = some t1 := by
    rw [createTask_some_unfold w s func args wa ids hpa] at h1
    rcases hl : s.tasks.lookup (candHash wa func ids) with _ | existing <;> rw [hl] at h1
    · dsimp only at h1
      rcases hva : validateArgs
          { s with taskTape := s.taskTape.map (fun t => t ++ [wa.futs.length]) }
          ⟨wa.futs ++ [taskRecord wa func ids none none]⟩
          (taskArgs ⟨wa.futs ++ [taskRecord wa func ids none none]⟩ wa.futs.length)
        with ⟨w2, b⟩
      rw [hva] at h1
      cases b <;> dsimp only at h1
      · exact absurd (congrArg (fun p => p.2.2) h1) (by simp)
      · have hs1 : ({ s with
            taskTape := s.taskTape.map (fun t => t ++ [wa.futs.length]),
            tasks := (candHash wa func ids, wa.futs.length) ::
              s.tasks } : Session) = s1 :=
          congrArg (fun p => p.2.1) h1
        have ht1 : wa.futs.length = t1 := by
          have := congrArg (fun p => p.2.2) h1
          simpa using this
        rw [← hs1]
        simp [List.lookup, ht1]
    · dsimp only at h1
      have hs1 : ({ s with taskTape := s.taskTape.map (fun t => t ++ [existing]) } :
          Session) = s1 := congrArg (fun p => p.2.1) h1
      have ht1 : existing = t1 := by
        have := congrArg (fun p => p.2.2) h1
        simpa using this
      rw [← hs1]
      simpa [ht1] using hl
  refine ⟨hlk, ?_⟩
  rw [createTask_some_unfold w1 s1 func args2 wa2 ids2 hpa2, hch2, hlk]

/-- Witness for C2: calling `tests:fib(1)` twice in a session returns
the same arena id both times. -/
theorem C2_create_task_dedup_witness :
    ((createTask ⟨[]⟩ ⟨[], none⟩ ⟨"tests", "fib"⟩ [Val.int 1]).2.1.tasks.lookup
      (candHash (promoteArgs ⟨[]⟩ [Val.int 1]).1 ⟨"tests", "fib"⟩ [0]) = some 1) ∧
    (createTask (createTask ⟨[]⟩ ⟨[], none⟩ ⟨"tests", "fib"⟩ [Val.int 1]).1
      (createTask ⟨[]⟩ ⟨[], none⟩ ⟨"tests", "fib"⟩ [Val.int 1]).2.1
      ⟨"tests", "fib"⟩ [Val.int 1]).2.2 = .ok 1 :=
  C2_create_task_dedup ⟨[]⟩ ⟨[], none⟩ ⟨"tests", "fib"⟩ [Val.int 1] [Val.int 1]
    (createTask ⟨[]⟩ ⟨[], none⟩ ⟨"tests", "fib"⟩ [Val.int 1]).1
    (createTask ⟨[]⟩ ⟨[], none⟩ ⟨"tests", "fib"⟩ [Val.int 1]).2.1 1
    (promoteArgs ⟨[]⟩ [Val.int 1]).1 [0]
    (promoteArgs (createTask ⟨[]⟩ ⟨[], none⟩ ⟨"tests", "fib"⟩ [Val.int 1]).1
      [Val.int 1]).1 [2]
    (by rfl) (by rfl) (by rfl) (by rfl)

/-- C9: when `create_task` raises `ArgNotInSession`, the session table
is exactly what it was, and the candidate task has already been
appended to the active tape (when one is installed). -/
theorem C9_arg_error_table_unchanged
    (w : World) (s : Session) (func : PyFunc) (args : List Val)
    (w' : World) (s' : Session)
    (h : createTask w s func args = (w', s', .error .argNotInSession)) :
    s'.tasks = s.tasks ∧
    ∃ wa ids, promoteArgs w args = (wa, some ids) ∧
      s'.taskTape = s.taskTape.map (fun t => t ++ [wa.futs.length]) := by
  rw [createTask] at h
  rcases hti : taskInit w func args none none with ⟨wT, oT⟩ <;> rw [hti] at h
  rcases oT with _ | tid <;> dsimp only at h
  · exact absurd (congrArg (fun p => p.2.2) h) (by simp)
  · obtain ⟨wa, ids, hpa, htid, hwT⟩ := taskInit_ok w func args none none wT tid hti
    rcases hl : s.tasks.lookup ((getF wT tid).hashid) with _ | existing <;>
      rw [hl] at h <;> dsimp only at h
    · rcases hva : validateArgs
          { s with taskTape := s.taskTape.map (fun t => t ++ [tid]) }
          wT (taskArgs wT tid) with ⟨w2, b⟩
      rw [hva] at h
      cases b <;> dsimp only at h
      · have hs' : ({ s with taskTape := s.taskTape.map (fun t => t ++ [tid]) } :
            Session) = s' := congrArg (fun p => p.2.1) h
        rw [← hs']
        exact ⟨rfl, wa, ids, hpa, by rw [htid]⟩
      · exact absurd (congrArg (fun p => p.2.2) h) (by simp)
    · exact absurd (congrArg (fun p => p.2.2) h) (by simp)

/-- Witness for C9: creating a task whose argument is a task unknown to
the (empty) session raises `ArgNotInSession`, leaves the table empty,
and appends the candidate (id 2) to the installed tape. -/
theorem C9_arg_error_table_unchanged_witness :
    (createTask exTaskWorld ⟨[], some []⟩ ⟨"tests", "outer"⟩ [Val.fut 1]).2.1.tasks
        = (⟨[], some []⟩ : Session).tasks ∧
    ∃ wa ids, promoteArgs exTaskWorld [Val.fut 1] = (wa, some ids) ∧
      (createTask exTaskWorld ⟨[], some []⟩ ⟨"tests", "outer"⟩ [Val.fut 1]).2.1.taskTape
        = (⟨[], some []⟩ : Session).taskTape.map (fun t => t ++ [wa.futs.length]) :=
  C9_arg_error_table_unchanged exTaskWorld ⟨[], some []⟩ ⟨"tests", "outer"⟩
    [Val.fut 1]
    (createTask exTaskWorld ⟨[], some []⟩ ⟨"tests", "outer"⟩ [Val.fut 1]).1
    (createTask exTaskWorld ⟨[], some []⟩ ⟨"tests", "outer"⟩ [Val.fut 1]).2.1
    (by rfl)

/-! ## Indexor chains (C4) -/

/-- The record `Indexor.__init__` appends. -/
def indexorRecord (w : World) (t : FutureId) (keys : List Val) : Fut :=
  { kind := .indexor t keys
    hashid := String.intercalate "/" (("@" ++ (getF w t).hashid) :: keys.map pyStrVal)
    spec := String.intercalate "/" (("@" ++ (getF w t).hashid) :: keys.map pyStrVal)
    pending := initPending w [t]
    children := [], result := none, registered := false
    futureResult := none, taskChildren := [], defaultVal := none, label := none }

theorem mkIndexor_eq (w : World) (t : FutureId) (keys : List Val) :
    mkIndexor w t keys =
      (if (indexorRecord w t keys).pending.isEmpty then
        (fireReady (w.futs.length + 2) ⟨w.futs ++ [indexorRecord w t keys]⟩
          w.futs.length, w.futs.length)
       else (⟨w.futs ++ [indexorRecord w t keys]⟩, w.futs.length)) := by
  rw [mkIndexor]
  simp only [indexorRecord, List.length_append, List.length_singleton]

theorem initPending_not_done (w : World) (t : FutureId) (h : doneF w t = false) :
    initPending w [t] = [t] := by
  simp [initPending, h]

/-- A ready, unfinished zero-argument task (id 0). -/
def exT0World : World :=
  (taskInit ⟨[]⟩ ⟨"tests", "mk"⟩ [] none none).1

/-- `task[0]` built before the task is done (indexor id 1). -/
def exIdxPair : World × FutureId :=
  (getitemF exT0World 0 (.int 0)).getD (⟨[]⟩, 0)

/-- A world with a completed zero-argument task (id 0). -/
def exDoneTaskWorld : World :=
  setResultF 1 (taskInit ⟨[]⟩ ⟨"tests", "mk"⟩ [] none none).1 0 (.int 0)

/-- C6: the `State` enum does not have five distinct members: `DONE = 1`
repeats `READY = 1`, so Python makes `State.DONE` an alias of
`State.READY`; a done template reports the member named `READY`, and a
done task even reports `HAS_RUN` through the `Task.state` override. -/
theorem C6_done_state_alias :
    pyMember .DONE = pyMember .READY ∧
    stateNameStr (pyMember .DONE) = "READY" ∧
    (doneF (from_object ⟨[]⟩ (.int 1)).1 0 = true ∧
      stateF (from_object ⟨[]⟩ (.int 1)).1 0 = pyMember .READY) ∧
    (doneF exDoneTaskWorld 0 = true ∧
      stateF exDoneTaskWorld 0 = pyMember .HAS_RUN) := by
  refine ⟨rfl, rfl, ⟨?_, ?_⟩, ?_, ?_⟩ <;> rfl

/-! ## Unregistered futures receive no completions (C10) -/

/-- The observable "nobody will ever notify this future" state: the
future exists, keeps its original pending parents and no result, and is
in no other future's `_children` set. -/
def futUntouched (f : FutureId) (P0 : List FutureId) (w : World) : Prop :=
  f < w.futs.length ∧ (getF w f).pending = P0 ∧ (getF w f).result = none ∧
  ∀ j, f ∉ (getF w j).children

theorem foldl_pres_mem {α : Type} (P : World → Prop) (g : World → α → World) :
    ∀ l : List α, (∀ w a, a ∈ l → P w → P (g w a)) →
    ∀ w, P w → P (l.foldl g w) := by
  intro l
  induction l with
  | nil => intro _ w hw; exact hw
  | cons a l ih =>
    intro h w hw
    exact ih (fun w b hb hw2 => h w b (.tail _ hb) hw2) (g w a) (h w a (.head _) hw)

theorem foldl_flag_mono {α : Type} (Flag : World → Bool) (g : World → α → World) :
    ∀ l : List α, (∀ w a, a ∈ l → Flag w = true → Flag (g w a) = true) →
    ∀ w, Flag w = true → Flag (l.foldl g w) = true := by
  intro l
  induction l with
  | nil => intro _ w hw; exact hw
  | cons a l ih =>
    intro h w hw
    exact ih (fun w b hb hw2 => h w b (.tail _ hb) hw2) (g w a) (h w a (.head _) hw)

theorem foldl_inv_flag {α : Type} (P : World → Prop) (Flag : World → Bool)
    (g : World → α → World) :
    ∀ l : List α, (∀ w a, a ∈ l → Flag w = true → Flag (g w a) = true) →
    (∀ w a, a ∈ l → P w → Flag (g w a) = false → P (g w a)) →
    ∀ w, P w → Flag (l.foldl g w) = false → P (l.foldl g w) := by
  intro l
  induction l with
  | nil => intro _ _ w hw _; exact hw
  | cons a l ih =>
    intro hm hs w hw hfl
    rw [List.foldl_cons] at hfl
    have hfa : Flag (g w a) = false := by
      rcases hb : Flag (g w a)
      · rfl
      · have := foldl_flag_mono Flag g l (fun w b hb2 => hm w b (.tail _ hb2))
          (g w a) hb
        rw [hfl] at this
        exact absurd this (by simp)
    rw [List.foldl_cons]
    exact ih (fun w b hb2 => hm w b (.tail _ hb2)) (fun w b hb2 => hs w b (.tail _ hb2))
      (g w a) (hs w a (.head _) hw hfa) hfl

theorem addChild_registered (r : Fut) (c : FutureId) :
    (addChild r c).registered = r.registered := by
  rw [addChild]
  split <;> rfl

theorem addChild_pending (r : Fut) (c : FutureId) :
    (addChild r c).pending = r.pending := by
  rw [addChild]
  split <;> rfl

theorem addChild_result (r : Fut) (c : FutureId) :
    (addChild r c).result = r.result := by
  rw [addChild]
  split <;> rfl

theorem addChild_mem (r : Fut) (c x : FutureId) :
    x ∈ (addChild r c).children → x = c ∨ x ∈ r.children := by
  rw [addChild]
  split
  · exact fun h => Or.inr h
  · intro h
    rcases List.mem_append.mp h with h | h
    · exact Or.inr h
    · exact Or.inl (by simpa using h)

theorem registered_updFut (w : World) (i : FutureId) (g : Fut → Fut)
    (hg : ∀ r, (g r).registered = r.registered) (j : FutureId) :
    (getF (updFut w i g) j).registered = (getF w j).registered := by
  by_cases hj : j = i
  · subst hj
    by_cases hl : j < w.futs.length
    · rw [getF_updFut_self _ _ _ hl, hg]
    · rw [getF_updFut_ge _ _ _ (le_of_not_lt hl)]
  · rw [getF_updFut_other _ _ _ _ hj]

/-- An `updFut` whose modifier keeps `children` and, at `f` itself,
keeps `pending` and `result`, preserves `futUntouched`. -/
theorem futUntouched_updFut (f : FutureId) (P0 : List FutureId) (w : World)
    (i : FutureId) (g : Fut → Fut)
    (hgp : i = f → ∀ r, (g r).pending = r.pending ∧ (g r).result = r.result)
    (hgc : ∀ r x, x ∈ (g r).children → x = f → x ∈ r.children)
    (h : futUntouched f P0 w) : futUntouched f P0 (updFut w i g) := by
  obtain ⟨hlen, hp, hr, hnc⟩ := h
  refine ⟨by rw [updFut_length]; exact hlen, ?_, ?_, ?_⟩
  · by_cases hif : f = i
    · rw [← hif, getF_updFut_self _ _ _ hlen, (hgp hif.symm _).1]
      exact hp
    · rw [getF_updFut_other _ _ _ _ hif]
      exact hp
  · by_cases hif : f = i
    · rw [← hif, getF_updFut_self _ _ _ hlen, (hgp hif.symm _).2]
      exact hr
    · rw [getF_updFut_other _ _ _ _ hif]
      exact hr
  · intro j hmem
    by_cases hj : j = i
    · subst hj
      by_cases hl : j < w.futs.length
      · rw [getF_updFut_self _ _ _ hl] at hmem
        exact hnc j (hgc _ _ hmem rfl)
      · rw [getF_updFut_ge _ _ _ (le_of_not_lt hl)] at hmem
        exact hnc j hmem
    · rw [getF_updFut_other _ _ _ _ hj] at hmem
      exact hnc j hmem

/-- The completion cascade never touches `f` when `f` sits in nobody's
`_children` set and has pending parents. -/
theorem cascade_futUntouched (f : FutureId) (P0 : List FutureId) (hP0 : P0 ≠ []) :
    ∀ (fuel : Nat) (w : World) (op : CascadeOp),
    futUntouched f P0 w → (∀ i p, op = .pdone i p → i ≠ f) →
    futUntouched f P0 (cascade fuel w op) := by
  intro fuel
  induction fuel with
  | zero =>
    intro w op h _
    rw [cascade_zero]
    exact h
  | succ fuel ih =>
    intro w op h hop
    match op with
    | .set i v =>
      rw [cascade_set]
      split
      · rename_i hguard
        have hif : i ≠ f := by
          intro hcontra
          subst hcontra
          rw [h.2.1] at hguard
          rw [List.isEmpty_iff] at hguard
          exact hP0 hguard.1
        have h1 : futUntouched f P0 (updFut w i
            (fun r => { r with result := some v, futureResult := none })) :=
          futUntouched_updFut f P0 w i _
            (fun hif2 => absurd hif2 hif) (fun r x hx _ => hx) h
        refine foldl_pres_mem _ _ (getF w i).children ?_ _ h1
        intro w2 c hc hw2
        refine ih w2 (.pdone c i) hw2 ?_
        intro i2 p2 heq
        cases heq
        intro hcf
        subst hcf
        exact h.2.2.2 i hc
      · exact h
    | .pdone i p =>
      have hif : i ≠ f := hop i p rfl
      rw [cascade_pdone]
      have h1 : futUntouched f P0 (updFut w i
          (fun r => { r with pending := r.pending.erase p })) :=
        futUntouched_updFut f P0 w i _
          (fun hif2 => absurd hif2 hif) (fun r x hx _ => hx) h
      split
      · exact ih _ (.fire i) h1 (fun _ _ heq => by cases heq)
      · exact h1
    | .fire i =>
      rw [cascade_fire]
      split
      · split
        · exact ih _ (.set i _) h (fun _ _ heq => by cases heq)
        · exact h
      · split
        · exact ih _ (.set i _) h (fun _ _ heq => by cases heq)
        · exact h
      · exact h

theorem registerRec_zero (w : World) (i : FutureId) : registerRec w 0 i = w := by
  rw [registerRec]

theorem registerRec_succ (fuel : Nat) (w : World) (i : FutureId) :
    registerRec w (fuel + 1) i =
      if (getF w i).registered then w
      else
        match (getF w i).kind with
        | .template _ _ => (getF w i).pending.foldl (fun w p => registerRec w fuel p)
            ((getF w i).pending.foldl (fun w p => updFut w p (fun g => addChild g i))
              (updFut w i (fun r => { r with registered := true })))
        | _ => (getF w i).pending.foldl (fun w p => updFut w p (fun g => addChild g i))
            (updFut w i (fun r => { r with registered := true })) := by
  rw [registerRec]

theorem registerRec_flag_mono (f : FutureId) :
    ∀ (fuel : Nat) (w : World) (i : FutureId),
    (getF w f).registered = true →
    (getF (registerRec w fuel i) f).registered = true := by
  intro fuel
  induction fuel with
  | zero =>
    intro w i h
    rw [registerRec_zero]
    exact h
  | succ fuel ih =>
    intro w i h
    rw [registerRec_succ]
    split
    · exact h
    · have h1 : (getF (updFut w i (fun r => { r with registered := true }))
          f).registered = true := by
        by_cases hif : f = i
        · subst hif
          by_cases hl : f < w.futs.length
          · rw [getF_updFut_self _ _ _ hl]
          · rw [getF_updFut_ge _ _ _ (le_of_not_lt hl)]
            exact h
        · rw [getF_updFut_other _ _ _ _ hif]
          exact h
      have h2 : (getF ((getF w i).pending.foldl
          (fun w p => updFut w p (fun g => addChild g i))
          (updFut w i (fun r => { r with registered := true }))) f).registered
          = true := by
        refine foldl_flag_mono (fun w => (getF w f).registered) _ _ ?_ _ h1
        intro w2 p _ hw2
        show (getF (updFut w2 p (fun g => addChild g i)) f).registered = true
        rw [registered_updFut _ _ _ (fun r => addChild_registered r i)]
        exact hw2
      split
      · exact foldl_flag_mono (fun w => (getF w f).registered) _ _
          (fun w2 p _ hw2 => ih w2 p hw2) _ h2
      · exact h2

theorem registerRec_futUntouched (f : FutureId) (P0 : List FutureId) :
    ∀ (fuel : Nat) (w : World) (i : FutureId),
    futUntouched f P0 w →
    (getF (registerRec w fuel i) f).registered = false →
    futUntouched f P0 (registerRec w fuel i) := by
  intro fuel
  induction fuel with
  | zero =>
    intro w i h _
    rw [registerRec_zero]
    exact h
  | succ fuel ih =>
    intro w i h hflag
    rw [registerRec_succ] at hflag ⊢
    split
    · exact h
    · rename_i hnreg
      rw [if_neg hnreg] at hflag
      by_cases hif : i = f
      · exfalso
        subst hif
        have h1 : (getF (updFut w i (fun r => { r with registered := true }))
            i).registered = true := by
          rw [getF_updFut_self _ _ _ h.1]
        have h2 : (getF ((getF w i).pending.foldl
            (fun w p => updFut w p (fun g => addChild g i))
            (updFut w i (fun r => { r with registered := true }))) i).registered
            = true := by
          refine foldl_flag_mono (fun w => (getF w i).registered) _ _ ?_ _ h1
          intro w2 p _ hw2
          show (getF (updFut w2 p (fun g => addChild g i)) i).registered = true
          rw [registered_updFut _ _ _ (fun r => addChild_registered r i)]
          exact hw2
        revert hflag
        split
        · intro hflag
          have h3 : (getF (List.foldl (fun w p => registerRec w fuel p)
              (List.foldl (fun w p => updFut w p (fun g => addChild g i))
                (updFut w i (fun r => { r with registered := true }))
                (getF w i).pending)
              (getF w i).pending) i).registered = true :=
            foldl_flag_mono (fun w => (getF w i).registered) _
              (getF w i).pending (fun w2 p _ hw2 => registerRec_flag_mono i fuel w2 p hw2)
              _ h2
          rw [hflag] at h3
          simp at h3
        · intro hflag
          rw [hflag] at h2
          simp at h2
      · have h1 : futUntouched f P0
            (updFut w i (fun r => { r with registered := true })) :=
          futUntouched_updFut f P0 w i _
            (fun hif2 => absurd hif2 hif) (fun r x hx _ => hx) h
        have h2 : futUntouched f P0 ((getF w i).pending.foldl
            (fun w p => updFut w p (fun g => addChild g i))
            (updFut w i (fun r => { r with registered := true }))) := by
          refine foldl_pres_mem _ _ _ ?_ _ h1
          intro w2 p _ hw2
          refine futUntouched_updFut f P0 w2 p _ ?_ ?_ hw2
          · intro _ r
            exact ⟨addChild_pending r i, addChild_result r i⟩
          · intro r x hx hxf
            rcases addChild_mem r i x hx with rfl | hx2
            · exact absurd hxf hif
            · exact hx2
        revert hflag
        split
        · intro hflag
          exact foldl_inv_flag (futUntouched f P0) (fun w => (getF w f).registered) _
            (getF w i).pending
            (fun w2 p _ hw2 => registerRec_flag_mono f fuel w2 p hw2)
            (fun w2 p _ hw2 hfl => ih w2 p hw2 hfl) _ h2 hflag
        · intro _
          exact h2

theorem futUntouched_append (f : FutureId) (P0 : List FutureId) (w : World)
    (r : Fut) (hr : f ∉ r.children) (h : futUntouched f P0 w) :
    futUntouched f P0 ⟨w.futs ++ [r]⟩ := by
  obtain ⟨hlen, hp, hres, hnc⟩ := h
  have hlen2 : f < (w.futs ++ [r]).length := by
    simp only [List.length_append, List.length_singleton]
    exact Nat.lt_succ_of_lt hlen
  refine ⟨hlen2, ?_, ?_, ?_⟩
  · rw [getF_append_old _ _ _ hlen]; exact hp
  · rw [getF_append_old _ _ _ hlen]; exact hres
  · intro j
    rcases Nat.lt_trichotomy j w.futs.length with hj | hj | hj
    · rw [getF_append_old _ _ _ hj]; exact hnc j
    · subst hj; rw [getF_append_new]; exact hr
    · rw [getF_out_of_range _ j (by
        simp only [List.length_append, List.length_singleton]; exact hj)]
      simp [default]

/-- The construction-time ready callback on a record with no children
either does nothing or only sets that record's result. -/
theorem fireReady_fresh (fuel : Nat) (w1 : World) (i : FutureId)
    (hc : (getF w1 i).children = []) :
    fireReady (fuel + 1) w1 i = w1 ∨
    ∃ u, fireReady (fuel + 1) w1 i =
      updFut w1 i (fun r => { r with result := some u, futureResult := none }) := by
  rw [fireReady_eq]
  rcases hk : (getF w1 i).kind with _ | _ | _
  · exact Or.inl rfl
  · dsimp only
    rcases hs : substitute w1 i none with _ | u
    · exact Or.inl rfl
    · dsimp only
      rw [setResultF_no_children _ _ _ _ hc]
      split
      · exact Or.inr ⟨u, rfl⟩
      · exact Or.inl rfl
  · dsimp only
    rcases hs : resolve w1 i with _ | u
    · exact Or.inl rfl
    · dsimp only
      rw [setResultF_no_children _ _ _ _ hc]
      split
      · exact Or.inr ⟨u, rfl⟩
      · exact Or.inl rfl

theorem from_object_shape (w : World) (v : Val) :
    (from_object w v).1 = w ∨
    ∃ r : Fut, r.children = [] ∧
      ((from_object w v).1 = ⟨w.futs ++ [r]⟩ ∨
       ∃ u, (from_object w v).1 = updFut ⟨w.futs ++ [r]⟩ w.futs.length
         (fun r2 => { r2 with result := some u, futureResult := none })) := by
  rcases hf : isFutV v
  · rw [from_object_eq w v hf]
    rcases henc : encodeV w v with _ | ⟨jv, tape0⟩
    · exact Or.inl rfl
    · dsimp only
      split
      · refine Or.inr ⟨templateRecord w jv tape0, rfl, ?_⟩
        have hc : (getF ⟨w.futs ++ [templateRecord w jv tape0]⟩
            w.futs.length).children = [] := by
          rw [getF_append_new]; rfl
        rcases fireReady_fresh (w.futs.length + 1) _ _ hc with hs | ⟨u, hs⟩
        · rw [show w.futs.length + 2 = (w.futs.length + 1) + 1 from rfl]
          exact Or.inl hs
        · rw [show w.futs.length + 2 = (w.futs.length + 1) + 1 from rfl]
          exact Or.inr ⟨u, hs⟩
      · exact Or.inr ⟨templateRecord w jv tape0, rfl, Or.inl rfl⟩
  · rw [from_object, if_pos hf]
    exact Or.inl rfl

theorem mkIndexor_shape (w : World) (t : FutureId) (keys : List Val) :
    ∃ r : Fut, r.children = [] ∧
      ((mkIndexor w t keys).1 = ⟨w.futs ++ [r]⟩ ∨
       ∃ u, (mkIndexor w t keys).1 = updFut ⟨w.futs ++ [r]⟩ w.futs.length
         (fun r2 => { r2 with result := some u, futureResult := none })) := by
  rw [mkIndexor_eq]
  refine ⟨indexorRecord w t keys, rfl, ?_⟩
  split
  · have hc : (getF ⟨w.futs ++ [indexorRecord w t keys]⟩
        w.futs.length).children = [] := by
      rw [getF_append_new]; rfl
    rcases fireReady_fresh (w.futs.length + 1) _ _ hc with hs | ⟨u, hs⟩
    · rw [show w.futs.length + 2 = (w.futs.length + 1) + 1 from rfl]
      exact Or.inl hs
    · rw [show w.futs.length + 2 = (w.futs.length + 1) + 1 from rfl]
      exact Or.inr ⟨u, hs⟩
  · exact Or.inl rfl

theorem futUntouched_fresh_upd (f : FutureId) (P0 : List FutureId) (w : World)
    (r : Fut) (hr : f ∉ r.children) (u : Val) (h : futUntouched f P0 w) :
    futUntouched f P0 (updFut ⟨w.futs ++ [r]⟩ w.futs.length
      (fun r2 => { r2 with result := some u, futureResult := none })) := by
  refine futUntouched_updFut f P0 _ _ _ ?_ (fun r2 x hx _ => hx)
    (futUntouched_append f P0 w r hr h)
  intro heq
  exact False.elim (Nat.lt_irrefl f (by
    have := h.1
    rw [heq] at this
    exact this))

theorem from_object_futUntouched (f : FutureId) (P0 : List FutureId)
    (w : World) (v : Val) (h : futUntouched f P0 w) :
    futUntouched f P0 (from_object w v).1 := by
  rcases from_object_shape w v with hs | ⟨r, hrc, hs | ⟨u, hs⟩⟩ <;> rw [hs]
  · exact h
  · exact futUntouched_append f P0 w r (by rw [hrc]; simp) h
  · exact futUntouched_fresh_upd f P0 w r (by rw [hrc]; simp) u h

theorem mkIndexor_futUntouched (f : FutureId) (P0 : List FutureId)
    (w : World) (t : FutureId) (keys : List Val) (h : futUntouched f P0 w) :
    futUntouched f P0 (mkIndexor w t keys).1 := by
  rcases mkIndexor_shape w t keys with ⟨r, hrc, hs | ⟨u, hs⟩⟩ <;> rw [hs]
  · exact futUntouched_append f P0 w r (by rw [hrc]; simp) h
  · exact futUntouched_fresh_upd f P0 w r (by rw [hrc]; simp) u h

theorem promoteArgs_futUntouched (f : FutureId) (P0 : List FutureId) :
    ∀ (args : List Val) (w : World), futUntouched f P0 w →
    futUntouched f P0 (promoteArgs w args).1 := by
  intro args
  induction args with
  | nil =>
    intro w h
    rw [promoteArgs]
    exact h
  | cons v rest ih =>
    intro w h
    rw [promoteArgs]
    rcases hfi : futIdOf v with _ | k
    · dsimp only
      rcases hfo : from_object w v with ⟨wA, oA⟩
      have hA : futUntouched f P0 wA := by
        have := from_object_futUntouched f P0 w v h
        rw [hfo] at this
        exact this
      rcases oA with _ | k
      · exact hA
      · dsimp only
        rcases hrest : promoteArgs wA rest with ⟨wR, oR⟩
        have hR : futUntouched f P0 wR := by
          have := ih wA hA
          rw [hrest] at this
          exact this
        rcases oR with _ | ids <;> exact hR
    · dsimp only
      rcases hrest : promoteArgs w rest with ⟨wR, oR⟩
      have hR : futUntouched f P0 wR := by
        have := ih w h
        rw [hrest] at this
        exact this
      rcases oR with _ | ids <;> exact hR

theorem taskInit_futUntouched (f : FutureId) (P0 : List FutureId)
    (w : World) (func : PyFunc) (args : List Val) (d : Option Val)
    (lbl : Option String) (h : futUntouched f P0 w) :
    futUntouched f P0 (taskInit w func args d lbl).1 := by
  rw [taskInit]
  rcases hp : promoteArgs w args with ⟨w1, o⟩
  have h1 : futUntouched f P0 w1 := by
    have := promoteArgs_futUntouched f P0 args w h
    rw [hp] at this
    exact this
  rcases o with _ | ids
  · exact h1
  · exact futUntouched_append f P0 w1 _ (by simp [taskRecord]) h1

theorem registered_of_true {w : World} {f : FutureId}
    (h : (getF w f).registered = true) : f < w.futs.length := by
  by_contra hc
  rw [getF_out_of_range w f (le_of_not_lt hc)] at h
  simp [default] at h

theorem from_object_flag_mono (f : FutureId) (w : World) (v : Val)
    (h : (getF w f).registered = true) :
    (getF (from_object w v).1 f).registered = true := by
  have hlen : f < w.futs.length := registered_of_true h
  rcases from_object_shape w v with hs | ⟨r, _, hs | ⟨u, hs⟩⟩ <;> rw [hs]
  · exact h
  · rw [getF_append_old _ _ _ hlen]; exact h
  · rw [getF_updFut_other _ _ _ _ (Nat.ne_of_lt hlen), getF_append_old _ _ _ hlen]
    exact h

theorem mkIndexor_flag_mono (f : FutureId) (w : World) (t : FutureId)
    (keys : List Val) (h : (getF w f).registered = true) :
    (getF (mkIndexor w t keys).1 f).registered = true := by
  have hlen : f < w.futs.length := registered_of_true h
  rcases mkIndexor_shape w t keys with ⟨r, _, hs | ⟨u, hs⟩⟩ <;> rw [hs]
  · rw [getF_append_old _ _ _ hlen]; exact h
  · rw [getF_updFut_other _ _ _ _ (Nat.ne_of_lt hlen), getF_append_old _ _ _ hlen]
    exact h

theorem promoteArgs_flag_mono (f : FutureId) :
    ∀ (args : List Val) (w : World), (getF w f).registered = true →
    (getF (promoteArgs w args).1 f).registered = true := by
  intro args
  induction args with
  | nil =>
    intro w h
    rw [promoteArgs]
    exact h
  | cons v rest ih =>
    intro w h
    rw [promoteArgs]
    rcases hfi : futIdOf v with _ | k
    · dsimp only
      rcases hfo : from_object w v with ⟨wA, oA⟩
      have hA : (getF wA f).registered = true := by
        have := from_object_flag_mono f w v h
        rw [hfo] at this
        exact this
      rcases oA with _ | k
      · exact hA
      · dsimp only
        rcases hrest : promoteArgs wA rest with ⟨wR, oR⟩
        have hR : (getF wR f).registered = true := by
          have := ih wA hA
          rw [hrest] at this
          exact this
        rcases oR with _ | ids <;> exact hR
    · dsimp only
      rcases hrest : promoteArgs w rest with ⟨wR, oR⟩
      have hR : (getF wR f).registered = true := by
        have := ih w h
        rw [hrest] at this
        exact this
      rcases oR with _ | ids <;> exact hR

theorem taskInit_flag_mono (f : FutureId) (w : World) (func : PyFunc)
    (args : List Val) (d : Option Val) (lbl : Option String)
    (h : (getF w f).registered = true) :
    (getF (taskInit w func args d lbl).1 f).registered = true := by
  rw [taskInit]
  rcases hp : promoteArgs w args with ⟨w1, o⟩
  have h1 : (getF w1 f).registered = true := by
    have := promoteArgs_flag_mono f args w h
    rw [hp] at this
    exact this
  rcases o with _ | ids
  · exact h1
  · rw [getF_append_old _ _ _ (registered_of_true h1)]
    exact h1

theorem validateArgs_eq (s : Session) (w : World) (a : FutureId)
    (rest : List FutureId) :
    validateArgs s w (a :: rest) =
      (if (match (getF w a).kind with
          | .task _ _ => (s.tasks.lookup (getF w a).hashid).isSome
          | _ => (extractTasks w a).all
              (fun t => (s.tasks.lookup (getF w t).hashid).isSome))
       then validateArgs s (registerRec w (w.futs.length + 1) a) rest
       else (w, false)) := by
  rw [validateArgs]

theorem validateArgs_flag_mono (f : FutureId) (s : Session) :
    ∀ (ids : List FutureId) (w : World), (getF w f).registered = true →
    (getF (validateArgs s w ids).1 f).registered = true := by
  intro ids
  induction ids with
  | nil =>
    intro w h
    rw [validateArgs]
    exact h
  | cons a rest ih =>
    intro w h
    rw [validateArgs_eq]
    split
    · exact ih _ (registerRec_flag_mono f _ w a h)
    · exact h

theorem validateArgs_futUntouched (f : FutureId) (P0 : List FutureId) (s : Session) :
    ∀ (ids : List FutureId) (w : World), futUntouched f P0 w →
    (getF (validateArgs s w ids).1 f).registered = false →
    futUntouched f P0 (validateArgs s w ids).1 := by
  intro ids
  induction ids with
  | nil =>
    intro w h _
    rw [validateArgs]
    exact h
  | cons a rest ih =>
    intro w h hflag
    rw [validateArgs_eq] at hflag ⊢
    split
    · rename_i hok
      rw [if_pos hok] at hflag
      have hfr : (getF (registerRec w (w.futs.length + 1) a) f).registered
          = false := by
        rcases hb : (getF (registerRec w (w.futs.length + 1) a) f).registered
        · rfl
        · have := validateArgs_flag_mono f s rest _ hb
          rw [hflag] at this
          exact absurd this (by simp)
      exact ih _ (registerRec_futUntouched f P0 _ w a h hfr) hflag
    · rename_i hok
      rw [if_neg hok] at hflag
      exact h

theorem createTask_flag_mono (f : FutureId) (w : World) (s : Session)
    (func : PyFunc) (args : List Val) (h : (getF w f).registered = true) :
    (getF (createTask w s func args).1 f).registered = true := by
  rw [createTask]
  rcases hti : taskInit w func args none none with ⟨w1, o⟩
  have h1 : (getF w1 f).registered = true := by
    have := taskInit_flag_mono f w func args none none h
    rw [hti] at this
    exact this
  rcases o with _ | tid
  · exact h1
  · dsimp only
    rcases hl : s.tasks.lookup ((getF w1 tid).hashid) with _ | existing
    · dsimp only
      rcases hva : validateArgs
          { s with taskTape := s.taskTape.map (fun t => t ++ [tid]) } w1
          (taskArgs w1 tid) with ⟨w2, b⟩
      have h2 : (getF w2 f).registered = true := by
        have := validateArgs_flag_mono f
          { s with taskTape := s.taskTape.map (fun t => t ++ [tid]) }
          (taskArgs w1 tid) w1 h1
        rw [hva] at this
        exact this
      rcases b with _ | _
      · exact h2
      · exact registerRec_flag_mono f _ w2 tid h2
    · exact h1

theorem createTask_futUntouched (f : FutureId) (P0 : List FutureId)
    (w : World) (s : Session) (func : PyFunc) (args : List Val)
    (h : futUntouched f P0 w)
    (hflag : (getF (createTask w s func args).1 f).registered = false) :
    futUntouched f P0 (createTask w s func args).1 := by
  rw [createTask] at hflag ⊢
  rcases hti : taskInit w func args none none with ⟨w1, o⟩
  rw [hti] at hflag
  have h1 : futUntouched f P0 w1 := by
    have := taskInit_futUntouched f P0 w func args none none h
    rw [hti] at this
    exact this
  rcases o with _ | tid
  · exact h1
  · dsimp only at hflag ⊢
    rcases hl : s.tasks.lookup ((getF w1 tid).hashid) with _ | existing <;>
      rw [hl] at hflag
    · dsimp only at hflag ⊢
      rcases hva : validateArgs
          { s with taskTape := s.taskTape.map (fun t => t ++ [tid]) } w1
          (taskArgs w1 tid) with ⟨w2, b⟩
      rw [hva] at hflag
      rcases b with _ | _ <;> dsimp only at hflag ⊢
      · have := validateArgs_futUntouched f P0 _ (taskArgs w1 tid) w1 h1 (by
          rw [hva]
          exact hflag)
        rw [hva] at this
        exact this
      · have h2f : (getF w2 f).registered = false := by
          rcases hb : (getF w2 f).registered
          · rfl
          · have := registerRec_flag_mono f (w2.futs.length + 1) w2 tid hb
            rw [hflag] at this
            exact absurd this (by simp)
        have h2 : futUntouched f P0 w2 := by
          have := validateArgs_futUntouched f P0 _ (taskArgs w1 tid) w1 h1 (by
            rw [hva]
            exact h2f)
          rw [hva] at this
          exact this
        exact registerRec_futUntouched f P0 _ w2 tid h2 hflag
    · exact h1

/-! ## Event traces over the engine -/

/-- The operations a client (or the engine itself) may perform on the
future graph. -/
inductive Event where
  | register : FutureId → Event
  | setResult : FutureId → Val → Event
  | fromObject : Val → Event
  | mkIdx : FutureId → List Val → Event
  | createT : PyFunc → List Val → Event

/-- A world together with its session. -/
structure Sys where
  w : World
  s : Session

/-- One engine operation. -/
def stepEvent (sys : Sys) : Event → Sys
  | .register i => ⟨registerRec sys.w (sys.w.futs.length + 1) i, sys.s⟩
  | .setResult i v => ⟨setResultF (sys.w.futs.length + 1) sys.w i v, sys.s⟩
  | .fromObject v => ⟨(from_object sys.w v).1, sys.s⟩
  | .mkIdx t keys => ⟨(mkIndexor sys.w t keys).1, sys.s⟩
  | .createT func args =>
    let r := createTask sys.w sys.s func args
    ⟨r.1, r.2.1⟩

/-- Run a list of operations. -/
def runEvents (sys : Sys) : List Event → Sys
  | [] => sys
  | e :: es => runEvents (stepEvent sys e) es

theorem stepEvent_flag_mono (f : FutureId) (sys : Sys) (e : Event)
    (h : (getF sys.w f).registered = true) :
    (getF (stepEvent sys e).w f).registered = true := by
  match e with
  | .register i => exact registerRec_flag_mono f _ sys.w i h
  | .setResult i v =>
    have := ((cascade_skelPres (sys.w.futs.length + 1) sys.w (.set i v)).2 f).2.2.2.1
    rw [stepEvent, setResultF]
    show (getF (cascade (sys.w.futs.length + 1) sys.w (.set i v)) f).registered = true
    rw [this]
    exact h
  | .fromObject v => exact from_object_flag_mono f sys.w v h
  | .mkIdx t keys => exact mkIndexor_flag_mono f sys.w t keys h
  | .createT func args => exact createTask_flag_mono f sys.w sys.s func args h

theorem stepEvent_futUntouched (f : FutureId) (P0 : List FutureId)
    (hP0 : P0 ≠ []) (sys : Sys) (e : Event) (h : futUntouched f P0 sys.w)
    (hflag : (getF (stepEvent sys e).w f).registered = false) :
    futUntouched f P0 (stepEvent sys e).w := by
  match e with
  | .register i => exact registerRec_futUntouched f P0 _ sys.w i h hflag
  | .setResult i v =>
    show futUntouched f P0 (cascade (sys.w.futs.length + 1) sys.w (.set i v))
    exact cascade_futUntouched f P0 hP0 _ sys.w (.set i v) h
      (fun _ _ heq => by cases heq)
  | .fromObject v => exact from_object_futUntouched f P0 sys.w v h
  | .mkIdx t keys => exact mkIndexor_futUntouched f P0 sys.w t keys h
  | .createT func args =>
    exact createTask_futUntouched f P0 sys.w sys.s func args h hflag

theorem runEvents_flag_mono (f : FutureId) :
    ∀ (es : List Event) (sys : Sys), (getF sys.w f).registered = true →
    (getF (runEvents sys es).w f).registered = true := by
  intro es
  induction es with
  | nil => intro sys h; exact h
  | cons e es ih =>
    intro sys h
    rw [runEvents]
    exact ih _ (stepEvent_flag_mono f sys e h)

theorem runEvents_futUntouched (f : FutureId) (P0 : List FutureId)
    (hP0 : P0 ≠ []) :
    ∀ (es : List Event) (sys : Sys), futUntouched f P0 sys.w →
    (getF (runEvents sys es).w f).registered = false →
    futUntouched f P0 (runEvents sys es).w := by
  intro es
  induction es with
  | nil => intro sys h _; exact h
  | cons e es ih =>
    intro sys h hflag
    rw [runEvents] at hflag ⊢
    have h1 : (getF (stepEvent sys e).w f).registered = false := by
      rcases hb : (getF (stepEvent sys e).w f).registered
      · rfl
      · have := runEvents_flag_mono f es _ hb
        rw [hflag] at this
        exact absurd this (by simp)
    exact ih _ (stepEvent_futUntouched f P0 hP0 sys e h h1) hflag

/-- C10: a future created with pending parents on which `register()` is
never called (directly or through the session) is never notified: over
any sequence of engine operations after which it is still unregistered,
its pending set is exactly the original one, it is not done, and
`result()` without a default raises `FutureNotDone`. -/
theorem C10_unregistered_future_never_completes
    (f : FutureId) (P0 : List FutureId) (sys0 : Sys) (es : List Event)
    (hP0 : P0 ≠ [])
    (hflen : f < sys0.w.futs.length)
    (hpend : (getF sys0.w f).pending = P0)
    (hres : (getF sys0.w f).result = none)
    (hnc : ∀ j, f ∉ (getF sys0.w j).children)
    (hfinal : (getF (runEvents sys0 es).w f).registered = false) :
    (getF (runEvents sys0 es).w f).pending = P0 ∧
    (getF (runEvents sys0 es).w f).result = none ∧
    resultF (runEvents sys0 es).w f none = none := by
  have h := runEvents_futUntouched f P0 hP0 es sys0 ⟨hflen, hpend, hres, hnc⟩ hfinal
  refine ⟨h.2.1, h.2.2.1, ?_⟩
  rw [resultF, h.2.2.1]

/-- Witness for C10: the indexor `task[0]`, never registered, after a
trace in which its only parent completes; its pending set still holds
the parent and `result()` has nothing to return. -/
theorem C10_unregistered_future_never_completes_witness :
    (getF (runEvents ⟨exIdxPair.1, ⟨[], none⟩⟩
      [.setResult 0 (.list [.int 5])]).w 1).pending = [0] ∧
    (getF (runEvents ⟨exIdxPair.1, ⟨[], none⟩⟩
      [.setResult 0 (.list [.int 5])]).w 1).result = none ∧
    resultF (runEvents ⟨exIdxPair.1, ⟨[], none⟩⟩
      [.setResult 0 (.list [.int 5])]).w 1 none = none :=
  C10_unregistered_future_never_completes 1 [0]
    ⟨exIdxPair.1, ⟨[], none⟩⟩ [.setResult 0 (.list [.int 5])]
    (by simp) (by decide) (by rfl) (by rfl)
    (by
      intro j
      match j with
      | 0 => decide
      | 1 => decide
      | n + 2 =>
        rw [getF_out_of_range _ _ (Nat.le_add_left 2 n)]
        decide)
    (by rfl)

/-! ## Encode/decode round trip (C3) -/

mutual
/-- Modelled from the spec: the right-hand side of the round-trip law,
"`v` with each embedded future handle replaced by that future's
result". -/
def replaceFuts (W : World) : Val → Option Val
  | .null => some .null
  | .boolean b => some (.boolean b)
  | .int n => some (.int n)
  | .str s => some (.str s)
  | .list xs => (replaceFutsList W xs).map .list
  | .dict kvs => (replaceFutsKVs W kvs).map .dict
  | .fut j => (getF W j).result

/-- `replaceFuts` over list elements. -/
def replaceFutsList (W : World) : List Val → Option (List Val)
  | [] => some []
  | x :: xs =>
    match replaceFuts W x, replaceFutsList W xs with
    | some v, some vs => some (v :: vs)
    | _, _ => none

/-- `replaceFuts` over dict values. -/
def replaceFutsKVs (W : World) : List (String × Val) → Option (List (String × Val))
  | [] => some []
  | (k, x) :: kvs =>
    match replaceFuts W x, replaceFutsKVs W kvs with
    | some v, some vs => some ((k, v) :: vs)
    | _, _ => none
end

mutual
/-- No dict inside the value encodes to the reserved single-entry handle
shape (such a dict would be mistaken for a future handle when the
canonical JSON is decoded). -/
def encNoClash (W : World) : Val → Bool
  | .list xs => encNoClashList W xs
  | .dict kvs =>
    (match encodeVKVs W kvs with
     | some (js, _) => (handleHash (.obj js)).isNone
     | none => true) && encNoClashKVs W kvs
  | _ => true

/-- `encNoClash` over list elements. -/
def encNoClashList (W : World) : List Val → Bool
  | [] => true
  | x :: xs => encNoClash W x && encNoClashList W xs

/-- `encNoClash` over dict values. -/
def encNoClashKVs (W : World) : List (String × Val) → Bool
  | [] => true
  | (_, x) :: kvs => encNoClash W x && encNoClashKVs W kvs
end

mutual
/-- Structural size of a value, for strong induction. -/
def sizeV : Val → Nat
  | .list xs => sizeVList xs + 1
  | .dict kvs => sizeVKVs kvs + 1
  | _ => 1

/-- Structural size of a list of values. -/
def sizeVList : List Val → Nat
  | [] => 0
  | x :: xs => sizeV x + sizeVList xs + 1

/-- Structural size of dict entries. -/
def sizeVKVs : List (String × Val) → Nat
  | [] => 0
  | (_, x) :: kvs => sizeV x + sizeVKVs kvs + 1
end

theorem lookup_hash_map (W : World) (j : FutureId) :
    ∀ L : List FutureId, j ∈ L →
    (∀ a ∈ L, (getF W a).hashid = (getF W j).hashid → a = j) →
    (L.map (fun t => ((getF W t).hashid, t))).lookup ((getF W j).hashid)
      = some j := by
  intro L
  induction L with
  | nil => intro h _; cases h
  | cons a rest ih =>
    intro hj hinj
    simp only [List.map_cons, List.lookup]
    by_cases heq : (getF W j).hashid = (getF W a).hashid
    · rw [show ((getF W j).hashid == (getF W a).hashid) = true from
        beq_iff_eq.mpr heq]
      have ha : a = j := hinj a (List.mem_cons_self a rest) heq.symm
      dsimp only
      rw [ha]
    · rw [show ((getF W j).hashid == (getF W a).hashid) = false from
        beq_eq_false_iff_ne.mpr heq]
      dsimp only
      have hj2 : j ∈ rest := by
        rcases List.mem_cons.1 hj with h | h
        · exact absurd (by rw [h]) heq
        · exact h
      exact ih hj2 (fun b hb => hinj b (List.mem_cons_of_mem a hb))

/-- Joint round-trip statement over one world, by strong induction on the
structural size: decoding (`ClassJSONDecoder`) the encoding
(`ClassJSONEncoder` with `Template.from_object`'s handlers) of a value,
through a future table that maps each embedded future's hashid back to
that future, yields exactly the value with each handle replaced by the
future's stored `result`, and decoding is defined once every embedded
future is done. -/
theorem decode_encode_main (W : World) (futures : List (String × FutureId)) :
    ∀ n : Nat,
    (∀ v jv tape, sizeV v ≤ n → encodeV W v = some (jv, tape) →
      encNoClash W v = true →
      (∀ j ∈ tape, futures.lookup ((getF W j).hashid) = some j) →
      decodeJ W futures none jv = replaceFuts W v ∧
      ((∀ j ∈ tape, ((getF W j).result).isSome = true) →
        (replaceFuts W v).isSome = true)) ∧
    (∀ xs js tape, sizeVList xs ≤ n → encodeVList W xs = some (js, tape) →
      encNoClashList W xs = true →
      (∀ j ∈ tape, futures.lookup ((getF W j).hashid) = some j) →
      decodeJList W futures none js = replaceFutsList W xs ∧
      ((∀ j ∈ tape, ((getF W j).result).isSome = true) →
        (replaceFutsList W xs).isSome = true)) ∧
    (∀ kvs js tape, sizeVKVs kvs ≤ n → encodeVKVs W kvs = some (js, tape) →
      encNoClashKVs W kvs = true →
      (∀ j ∈ tape, futures.lookup ((getF W j).hashid) = some j) →
      decodeJKVs W futures none js = replaceFutsKVs W kvs ∧
      ((∀ j ∈ tape, ((getF W j).result).isSome = true) →
        (replaceFutsKVs W kvs).isSome = true)) := by
  intro n
  induction n using Nat.strong_induction_on with
  | _ n ih =>
  refine ⟨?_, ?_, ?_⟩
  · intro v jv tape hsz henc hnc hre
    rcases v with _ | b | m | s | xs | kvs | j
    · simp only [encodeV, Option.some.injEq, Prod.mk.injEq] at henc
      obtain ⟨rfl, rfl⟩ := henc
      exact ⟨rfl, fun _ => rfl⟩
    · simp only [encodeV, Option.some.injEq, Prod.mk.injEq] at henc
      obtain ⟨rfl, rfl⟩ := henc
      exact ⟨rfl, fun _ => rfl⟩
    · simp only [encodeV, Option.some.injEq, Prod.mk.injEq] at henc
      obtain ⟨rfl, rfl⟩ := henc
      exact ⟨rfl, fun _ => rfl⟩
    · simp only [encodeV, Option.some.injEq, Prod.mk.injEq] at henc
      obtain ⟨rfl, rfl⟩ := henc
      exact ⟨rfl, fun _ => rfl⟩
    · simp only [encodeV] at henc
      rcases hl : encodeVList W xs with _ | ⟨js0, t0⟩ <;> rw [hl] at henc <;>
        simp only [Option.map_none, Option.map_some, Option.map_none',
          Option.map_some'] at henc
      · cases henc
      · simp only [Option.some.injEq, Prod.mk.injEq] at henc
        obtain ⟨rfl, rfl⟩ := henc
        have hsz2 : sizeVList xs < n := by
          simp only [sizeV] at hsz
          omega
        have hnc2 : encNoClashList W xs = true := by
          simp only [encNoClash] at hnc
          exact hnc
        obtain ⟨heq, hsome⟩ := (ih _ hsz2).2.1 xs js0 t0 le_rfl hl hnc2 hre
        refine ⟨?_, ?_⟩
        · simp only [decodeJ, replaceFuts]
          rw [heq]
        · intro hd
          have hs := hsome hd
          simp only [replaceFuts]
          rcases hx : replaceFutsList W xs with _ | vs
          · rw [hx] at hs
            simp at hs
          · rfl
    · simp only [encodeV] at henc
      simp only [encNoClash] at hnc
      rcases hl : encodeVKVs W kvs with _ | ⟨js0, t0⟩ <;> rw [hl] at henc hnc <;>
        simp only [Option.map_none, Option.map_some, Option.map_none',
          Option.map_some'] at henc
      · cases henc
      · simp only [Option.some.injEq, Prod.mk.injEq] at henc
        obtain ⟨rfl, rfl⟩ := henc
        dsimp only at hnc
        rw [Bool.and_eq_true] at hnc
        obtain ⟨hnc1, hnc2⟩ := hnc
        have hhh : handleHash (.obj js0) = none := by
          rcases hno : handleHash (.obj js0) with _ | x
          · rfl
          · rw [hno] at hnc1
            cases hnc1
        have hsz2 : sizeVKVs kvs < n := by
          simp only [sizeV] at hsz
          omega
        obtain ⟨heq, hsome⟩ := (ih _ hsz2).2.2 kvs js0 t0 le_rfl hl hnc2 hre
        refine ⟨?_, ?_⟩
        · simp only [decodeJ, replaceFuts]
          rw [hhh]
          dsimp only
          rw [heq]
        · intro hd
          have hs := hsome hd
          simp only [replaceFuts]
          rcases hx : replaceFutsKVs W kvs with _ | vs
          · rw [hx] at hs
            simp at hs
          · rfl
    · simp only [encodeV] at henc
      rcases hk : (getF W j).kind with ⟨fn, ar⟩ | ⟨jv0, fl⟩ | ⟨t, ks⟩ <;>
        rw [hk] at henc <;> dsimp only at henc
      · simp only [Option.some.injEq, Prod.mk.injEq] at henc
        obtain ⟨rfl, rfl⟩ := henc
        have hlk := hre j (by simp)
        refine ⟨?_, ?_⟩
        · simp only [decodeJ]
          rw [show handleHash (.obj [("Task", .obj [("hashid",
              .str (getF W j).hashid)])]) = some ((getF W j).hashid) from rfl]
          dsimp only
          rw [hlk]
          dsimp only [Option.bind]
          simp only [replaceFuts, resultF]
          rcases hr : (getF W j).result with _ | u <;> rfl
        · intro hd
          simp only [replaceFuts]
          exact hd j (by simp)
      · cases henc
      · simp only [Option.some.injEq, Prod.mk.injEq] at henc
        obtain ⟨rfl, rfl⟩ := henc
        have hlk := hre j (by simp)
        refine ⟨?_, ?_⟩
        · simp only [decodeJ]
          rw [show handleHash (.obj [("Indexor", .obj [("hashid",
              .str (getF W j).hashid)])]) = some ((getF W j).hashid) from rfl]
          dsimp only
          rw [hlk]
          dsimp only [Option.bind]
          simp only [replaceFuts, resultF]
          rcases hr : (getF W j).result with _ | u <;> rfl
        · intro hd
          simp only [replaceFuts]
          exact hd j (by simp)
  · intro xs js tape hsz henc hnc hre
    rcases xs with _ | ⟨x, xs⟩
    · simp only [encodeVList, Option.some.injEq, Prod.mk.injEq] at henc
      obtain ⟨rfl, rfl⟩ := henc
      exact ⟨rfl, fun _ => rfl⟩
    · simp only [encodeVList] at henc
      rcases h1 : encodeV W x with _ | ⟨j1, t1⟩ <;> rw [h1] at henc <;>
        (try dsimp only at henc)
      · cases henc
      · rcases h2 : encodeVList W xs with _ | ⟨js2, t2⟩ <;> rw [h2] at henc <;>
          (try dsimp only at henc)
        · cases henc
        · simp only [Option.some.injEq, Prod.mk.injEq] at henc
          obtain ⟨rfl, rfl⟩ := henc
          simp only [sizeVList] at hsz
          have hlt1 : sizeV x < n := by omega
          have hlt2 : sizeVList xs < n := by omega
          simp only [encNoClashList, Bool.and_eq_true] at hnc
          obtain ⟨hnc1, hnc2⟩ := hnc
          have hre1 : ∀ j ∈ t1, futures.lookup ((getF W j).hashid) = some j :=
            fun j hj => hre j (List.mem_append_left _ hj)
          have hre2 : ∀ j ∈ t2, futures.lookup ((getF W j).hashid) = some j :=
            fun j hj => hre j (List.mem_append_right _ hj)
          obtain ⟨heq1, hsome1⟩ := (ih _ hlt1).1 x j1 t1 le_rfl h1 hnc1 hre1
          obtain ⟨heq2, hsome2⟩ := (ih _ hlt2).2.1 xs js2 t2 le_rfl h2 hnc2 hre2
          refine ⟨?_, ?_⟩
          · simp only [decodeJList]
            rw [heq1, heq2]
            rfl
          · intro hd
            have hs1 := hsome1 (fun j hj => hd j (List.mem_append_left _ hj))
            have hs2 := hsome2 (fun j hj => hd j (List.mem_append_right _ hj))
            simp only [replaceFutsList]
            rcases hx1 : replaceFuts W x with _ | v
            · rw [hx1] at hs1
              simp at hs1
            · rcases hx2 : replaceFutsList W xs with _ | vs
              · rw [hx2] at hs2
                simp at hs2
              · rfl
  · intro kvs js tape hsz henc hnc hre
    rcases kvs with _ | ⟨⟨k, x⟩, kvs⟩
    · simp only [encodeVKVs, Option.some.injEq, Prod.mk.injEq] at henc
      obtain ⟨rfl, rfl⟩ := henc
      exact ⟨rfl, fun _ => rfl⟩
    · simp only [encodeVKVs] at henc
      rcases h1 : encodeV W x with _ | ⟨j1, t1⟩ <;> rw [h1] at henc <;>
        (try dsimp only at henc)
      · cases henc
      · rcases h2 : encodeVKVs W kvs with _ | ⟨js2, t2⟩ <;> rw [h2] at henc <;>
          (try dsimp only at henc)
        · cases henc
        · simp only [Option.some.injEq, Prod.mk.injEq] at henc
          obtain ⟨rfl, rfl⟩ := henc
          simp only [sizeVKVs] at hsz
          have hlt1 : sizeV x < n := by omega
          have hlt2 : sizeVKVs kvs < n := by omega
          simp only [encNoClashKVs, Bool.and_eq_true] at hnc
          obtain ⟨hnc1, hnc2⟩ := hnc
          have hre1 : ∀ j ∈ t1, futures.lookup ((getF W j).hashid) = some j :=
            fun j hj => hre j (List.mem_append_left _ hj)
          have hre2 : ∀ j ∈ t2, futures.lookup ((getF W j).hashid) = some j :=
            fun j hj => hre j (List.mem_append_right _ hj)
          obtain ⟨heq1, hsome1⟩ := (ih _ hlt1).1 x j1 t1 le_rfl h1 hnc1 hre1
          obtain ⟨heq2, hsome2⟩ := (ih _ hlt2).2.2 kvs js2 t2 le_rfl h2 hnc2 hre2
          refine ⟨?_, ?_⟩
          · simp only [decodeJKVs]
            rw [heq1, heq2]
            rfl
          · intro hd
            have hs1 := hsome1 (fun j hj => hd j (List.mem_append_left _ hj))
            have hs2 := hsome2 (fun j hj => hd j (List.mem_append_right _ hj))
            simp only [replaceFutsKVs]
            rcases hx1 : replaceFuts W x with _ | v
            · rw [hx1] at hs1
              simp at hs1
            · rcases hx2 : replaceFutsKVs W kvs with _ | vs
              · rw [hx2] at hs2
                simp at hs2
              · rfl

/-- Encoding only reads the kind and hashid of the referenced futures,
so it is stable under any world evolution that preserves those fields of
the in-range records. -/
theorem encodeV_congr (w w' : World)
    (hsk : ∀ j, j < w.futs.length →
      (getF w' j).kind = (getF w j).kind ∧
      (getF w' j).hashid = (getF w j).hashid) :
    ∀ n : Nat,
    (∀ v jv tape, sizeV v ≤ n → encodeV w v = some (jv, tape) →
      (∀ j ∈ tape, j < w.futs.length) → encodeV w' v = some (jv, tape)) ∧
    (∀ xs js tape, sizeVList xs ≤ n → encodeVList w xs = some (js, tape) →
      (∀ j ∈ tape, j < w.futs.length) → encodeVList w' xs = some (js, tape)) ∧
    (∀ kvs js tape, sizeVKVs kvs ≤ n → encodeVKVs w kvs = some (js, tape) →
      (∀ j ∈ tape, j < w.futs.length) → encodeVKVs w' kvs = some (js, tape)) := by
  intro n
  induction n using Nat.strong_induction_on with
  | _ n ih =>
  refine ⟨?_, ?_, ?_⟩
  · intro v jv tape hsz henc htape
    rcases v with _ | b | m | s | xs | kvs | j
    · exact henc
    · exact henc
    · exact henc
    · exact henc
    · simp only [encodeV] at henc ⊢
      rcases hl : encodeVList w xs with _ | ⟨js0, t0⟩ <;> rw [hl] at henc <;>
        simp only [Option.map_none, Option.map_some, Option.map_none',
          Option.map_some'] at henc
      · cases henc
      · simp only [Option.some.injEq, Prod.mk.injEq] at henc
        obtain ⟨rfl, rfl⟩ := henc
        have hsz2 : sizeVList xs < n := by
          simp only [sizeV] at hsz
          omega
        rw [(ih _ hsz2).2.1 xs js0 t0 le_rfl hl htape]
        rfl
    · simp only [encodeV] at henc ⊢
      rcases hl : encodeVKVs w kvs with _ | ⟨js0, t0⟩ <;> rw [hl] at henc <;>
        simp only [Option.map_none, Option.map_some, Option.map_none',
          Option.map_some'] at henc
      · cases henc
      · simp only [Option.some.injEq, Prod.mk.injEq] at henc
        obtain ⟨rfl, rfl⟩ := henc
        have hsz2 : sizeVKVs kvs < n := by
          simp only [sizeV] at hsz
          omega
        rw [(ih _ hsz2).2.2 kvs js0 t0 le_rfl hl htape]
        rfl
    · simp only [encodeV] at henc ⊢
      rcases hk : (getF w j).kind with ⟨fn, ar⟩ | ⟨jv0, fl⟩ | ⟨t, ks⟩ <;>
        rw [hk] at henc <;> dsimp only at henc
      · simp only [Option.some.injEq, Prod.mk.injEq] at henc
        obtain ⟨rfl, rfl⟩ := henc
        obtain ⟨hk', hh'⟩ := hsk j (htape j (by simp))
        rw [hk', hk]
        dsimp only
        rw [hh']
      · cases henc
      · simp only [Option.some.injEq, Prod.mk.injEq] at henc
        obtain ⟨rfl, rfl⟩ := henc
        obtain ⟨hk', hh'⟩ := hsk j (htape j (by simp))
        rw [hk', hk]
        dsimp only
        rw [hh']
  · intro xs js tape hsz henc htape
    rcases xs with _ | ⟨x, xs⟩
    · exact henc
    · simp only [encodeVList] at henc ⊢
      rcases h1 : encodeV w x with _ | ⟨j1, t1⟩ <;> rw [h1] at henc <;>
        (try dsimp only at henc)
      · cases henc
      · rcases h2 : encodeVList w xs with _ | ⟨js2, t2⟩ <;> rw [h2] at henc <;>
          (try dsimp only at henc)
        · cases henc
        · simp only [Option.some.injEq, Prod.mk.injEq] at henc
          obtain ⟨rfl, rfl⟩ := henc
          simp only [sizeVList] at hsz
          have hlt1 : sizeV x < n := by omega
          have hlt2 : sizeVList xs < n := by omega
          rw [(ih _ hlt1).1 x j1 t1 le_rfl h1
              (fun j hj => htape j (List.mem_append_left _ hj)),
            (ih _ hlt2).2.1 xs js2 t2 le_rfl h2
              (fun j hj => htape j (List.mem_append_right _ hj))]
  · intro kvs js tape hsz henc htape
    rcases kvs with _ | ⟨⟨k, x⟩, kvs⟩
    · exact henc
    · simp only [encodeVKVs] at henc ⊢
      rcases h1 : encodeV w x with _ | ⟨j1, t1⟩ <;> rw [h1] at henc <;>
        (try dsimp only at henc)
      · cases henc
      · rcases h2 : encodeVKVs w kvs with _ | ⟨js2, t2⟩ <;> rw [h2] at henc <;>
          (try dsimp only at henc)
        · cases henc
        · simp only [Option.some.injEq, Prod.mk.injEq] at henc
          obtain ⟨rfl, rfl⟩ := henc
          simp only [sizeVKVs] at hsz
          have hlt1 : sizeV x < n := by omega
          have hlt2 : sizeVKVs kvs < n := by omega
          rw [(ih _ hlt1).1 x j1 t1 le_rfl h1
              (fun j hj => htape j (List.mem_append_left _ hj)),
            (ih _ hlt2).2.2 kvs js2 t2 le_rfl h2
              (fun j hj => htape j (List.mem_append_right _ hj))]

/-- C3: for a JSON-serialisable value `v` (its embedded futures exist,
no dict in it collides with the handle shape, and embedded hashids are
collision-free), decoding (`Template.substitute`) the result of encoding
`v` (`Template.from_object`), once all futures embedded in `v` are done,
yields a value equal to `v` with each embedded future handle replaced by
that future's result. -/
theorem C3_encode_decode_roundtrip
    (w : World) (v : Val) (jv : JVal) (tape : List FutureId)
    (w' : World) (i : FutureId)
    (henc : encodeV w v = some (jv, tape))
    (hobj : from_object w v = (w', some i))
    (htape : ∀ j ∈ tape, j < w.futs.length)
    (hnc : encNoClash w' v = true)
    (hinj : ∀ a ∈ tape, ∀ b ∈ tape,
      (getF w a).hashid = (getF w b).hashid → a = b)
    (hdone : ∀ j ∈ tape, ((getF w' j).result).isSome = true) :
    substitute w' i none = replaceFuts w' v ∧
    (substitute w' i none).isSome = true := by
  obtain ⟨jv2, tape2, henc2, hi, hlen, hold, hkind, hspec, hhash⟩ :=
    from_object_ok w v w' i hobj
  rw [henc] at henc2
  obtain ⟨rfl, rfl⟩ : jv = jv2 ∧ tape = tape2 := by
    simp only [Option.some.injEq, Prod.mk.injEq] at henc2
    exact henc2
  have hsk : ∀ j, j < w.futs.length →
      (getF w' j).kind = (getF w j).kind ∧
      (getF w' j).hashid = (getF w j).hashid :=
    fun j hj => by rw [hold j hj]; exact ⟨rfl, rfl⟩
  have henc' : encodeV w' v = some (jv, tape) :=
    (encodeV_congr w w' hsk (sizeV v)).1 v jv tape le_rfl henc htape
  have hre : ∀ j ∈ tape,
      (tape.dedup.map (fun t => ((getF w t).hashid, t))).lookup
        ((getF w' j).hashid) = some j := by
    intro j hj
    rw [(hsk j (htape j hj)).2]
    exact lookup_hash_map w j tape.dedup (List.mem_dedup.mpr hj)
      (fun a ha => hinj a (List.mem_dedup.mp ha) j hj)
  obtain ⟨heq, hsome⟩ := (decode_encode_main w'
      (tape.dedup.map (fun t => ((getF w t).hashid, t))) (sizeV v)).1
      v jv tape le_rfl henc' hnc hre
  have hsub : substitute w' i none =
      decodeJ w' (tape.dedup.map (fun t => ((getF w t).hashid, t))) none jv := by
    rw [substitute, hkind]
  refine ⟨hsub.trans heq, ?_⟩
  rw [hsub, heq]
  exact hsome hdone

/-- A concrete JSON-serialisable value embedding the done task of
`exDoneTaskWorld`. -/
def exC3v : Val := .dict [("a", .fut 0), ("b", .int 2)]

/-- The canonical JSON tree `exC3v` encodes to. -/
def exC3jv : JVal :=
  match encodeV exDoneTaskWorld exC3v with
  | some (j, _) => j
  | none => .null

/-- The world after `Template.from_object exC3v` (the template gets
id 1 and, its only parent being done, resolves immediately). -/
def exC3Pair : World × Option FutureId := from_object exDoneTaskWorld exC3v

set_option maxRecDepth 16384 in
/-- Witness for C3 at `exC3v` over a world with a completed task. -/
theorem C3_encode_decode_roundtrip_witness :
    substitute exC3Pair.1 1 none = replaceFuts exC3Pair.1 exC3v ∧
    (substitute exC3Pair.1 1 none).isSome = true :=
  C3_encode_decode_roundtrip exDoneTaskWorld exC3v exC3jv [0] exC3Pair.1 1
    (by rfl) (by rfl) (by decide) (by rfl) (by decide) (by decide)

/-! ## Termination of the evaluation loop (C5) -/

end Caf2
